import Mathlib

set_option maxRecDepth 8000

/-!
Verification development for the table-filter application.

The registry rows, the filter engine (`src/app/filters_core.py`), the
deadline/duplicate recomputations and the name-matching analysis
(`src/app/main.py`) are shallowly embedded below.  Python strings are
modelled as `List Char` (sequences of Unicode code points); pandas cells
of an object-dtype column are modelled by `PValue` (a string or NaN).
Library character classes (`re` word/space classes, `str.casefold`,
`unicodedata.normalize("NFKC", ·)`) are modelled by explicit tables and
range predicates that agree with the Python libraries on Basic Latin,
Latin-1/Latin-Extended-A and Cyrillic, the scripts this application
processes; characters outside the modelled ranges are treated as plain
word characters left unchanged.
-/

/-- Strings are sequences of Unicode code points. -/
abbrev Str := List Char

/-- Apply an association table to a character: the first pair whose left
component equals the character gives the image, otherwise the character is
returned unchanged.  Models both `str.translate`/`str.maketrans` and the
character-for-character `str.replace` loops of the source. -/
def lookupApply : List (Char × Char) → Char → Char
  | [], c => c
  | p :: ps, c => if p.1 = c then p.2 else lookupApply ps c

/-- Model of the Python regex class `\s` (Unicode whitespace), covering the
ASCII/Latin-1 controls and spaces and the general-punctuation spaces. -/
def pyIsSpace (c : Char) : Bool :=
  let v := c.toNat
  (9 ≤ v && v ≤ 13) || (28 ≤ v && v ≤ 32) || v = 0x85 || v = 0xA0 ||
    (0x2000 ≤ v && v ≤ 0x200A) || v = 0x2028 || v = 0x2029 || v = 0x202F ||
    v = 0x205F || v = 0x3000

/-- Model of the Python regex class `\w` (word characters), covering ASCII
alphanumerics, the underscore, Latin-1 and Latin-Extended-A letters, Greek
and Cyrillic. -/
def pyIsWord (c : Char) : Bool :=
  let v := c.toNat
  (48 ≤ v && v ≤ 57) || (65 ≤ v && v ≤ 90) || (97 ≤ v && v ≤ 122) || v = 95 ||
    (0xC0 ≤ v && v ≤ 0xFF && !(v = 0xD7) && !(v = 0xF7)) ||
    (0x100 ≤ v && v ≤ 0x17F) || (0x370 ≤ v && v ≤ 0x3FF && !(v = 0x374) && !(v = 0x375) && !(v = 0x37E) && !(v = 0x384) && !(v = 0x385) && !(v = 0x387)) ||
    (0x400 ≤ v && v ≤ 0x4FF)

/-- Model of `unicodedata.normalize("NFKC", ·)` restricted to the scripts
this application processes: on Basic Latin, Latin-1 letters and Cyrillic the
normalization is the identity, and the compatibility space characters
U+00A0 and U+202F decompose to an ordinary space.  Characters with other
compatibility decompositions are outside the modelled ranges and are left
unchanged. -/
def nfkcPairs : List (Char × Char) :=
  [(Char.ofNat 0xA0, ' '), (Char.ofNat 0x202F, ' ')]

/-- Code points replaced with an ordinary space by the source
(`" ", "​", " ", "﻿"`, main.py lines 659-660). -/
def spaceVariantPairs : List (Char × Char) :=
  [(Char.ofNat 0xA0, ' '), (Char.ofNat 0x200B, ' '),
   (Char.ofNat 0x202F, ' '), (Char.ofNat 0xFEFF, ' ')]

/-- The Latin-to-Cyrillic confusable table of `_normalize_pib_flexible`
(main.py lines 663-677).  The right components are written with explicit
code points to make the Cyrillic targets unambiguous:
А 0x410, а 0x430, В 0x412, С 0x421, с 0x441, Е 0x415, е 0x435, Н 0x41D,
І 0x406, і 0x456, К 0x41A, М 0x41C, О 0x41E, о 0x43E, Р 0x420, р 0x440,
Т 0x422, Х 0x425, х 0x445, У 0x423, у 0x443. -/
def translatePairs : List (Char × Char) :=
  [('A', Char.ofNat 0x410), ('a', Char.ofNat 0x430),
   ('B', Char.ofNat 0x412),
   ('C', Char.ofNat 0x421), ('c', Char.ofNat 0x441),
   ('E', Char.ofNat 0x415), ('e', Char.ofNat 0x435),
   ('H', Char.ofNat 0x41D),
   ('I', Char.ofNat 0x406), ('i', Char.ofNat 0x456),
   ('K', Char.ofNat 0x41A),
   ('M', Char.ofNat 0x41C),
   ('O', Char.ofNat 0x41E), ('o', Char.ofNat 0x43E),
   ('P', Char.ofNat 0x420), ('p', Char.ofNat 0x440),
   ('T', Char.ofNat 0x422),
   ('X', Char.ofNat 0x425), ('x', Char.ofNat 0x445),
   ('Y', Char.ofNat 0x423), ('y', Char.ofNat 0x443)]

/-- The apostrophe and dash variants removed outright by the source regex
`[’ʼ'`´\-–—−‐]` (main.py line 680): U+2019, U+02BC, U+0027, U+0060, U+00B4,
U+002D, U+2013, U+2014, U+2212, U+2010. -/
def aposChars : List Char :=
  [Char.ofNat 0x2019, Char.ofNat 0x2BC, Char.ofNat 0x27, Char.ofNat 0x60,
   Char.ofNat 0xB4, Char.ofNat 0x2D, Char.ofNat 0x2013, Char.ofNat 0x2014,
   Char.ofNat 0x2212, Char.ofNat 0x2010]

/-- Apply a string-valued association table to a character: the first pair
whose left component equals the character gives the image, otherwise the
one-character string is returned.  Used for case folding, where a single
character may fold to several. -/
def lookupApplyF : List (Char × Str) → Char → Str
  | [], c => [c]
  | p :: ps, c => if p.1 = c then p.2 else lookupApplyF ps c

/-- Model of `str.casefold` on Basic Latin, Latin-1, Latin Extended-A and
Cyrillic, including the multi-character full case foldings in those
ranges: ASCII A-Z, the Latin-1 letters À-Þ (U+00D7 is not a letter),
ß (U+00DF) folding to `ss`, the Latin Extended-A case pairs with
İ (U+0130) folding to `i` + combining dot above (U+0307), Ÿ (U+0178) to
ÿ (U+00FF) and ſ (U+017F) to `s`, and the Cyrillic case pairs
Ѐ-Џ/А-Я/Ѡ-ѿ/Ҋ-ҿ/Ӏ/Ӂ-Ӎ/Ӑ-ӿ.  ŉ (U+0149) is excluded from the modelled
character set: in Python it is decomposed by the NFKC step before folding,
which the character-to-character NFKC model does not represent.  Every
character outside the table is left unchanged. -/
def caseFoldTable : List (Char × Str) :=
  ((List.range 26).map (fun i => (Char.ofNat (65 + i), [Char.ofNat (97 + i)]))) ++
    (((List.range 31).map (fun i =>
        (Char.ofNat (0xC0 + i), [Char.ofNat (0xE0 + i)]))).filter
      (fun p => !(p.1.toNat = 0xD7))) ++
    [(Char.ofNat 0xDF, [Char.ofNat 0x73, Char.ofNat 0x73])] ++
    ((List.range 24).map (fun i =>
      (Char.ofNat (0x100 + 2 * i), [Char.ofNat (0x101 + 2 * i)]))) ++
    [(Char.ofNat 0x130, [Char.ofNat 0x69, Char.ofNat 0x307])] ++
    ((List.range 3).map (fun i =>
      (Char.ofNat (0x132 + 2 * i), [Char.ofNat (0x133 + 2 * i)]))) ++
    ((List.range 8).map (fun i =>
      (Char.ofNat (0x139 + 2 * i), [Char.ofNat (0x13A + 2 * i)]))) ++
    ((List.range 23).map (fun i =>
      (Char.ofNat (0x14A + 2 * i), [Char.ofNat (0x14B + 2 * i)]))) ++
    [(Char.ofNat 0x178, [Char.ofNat 0xFF])] ++
    ((List.range 3).map (fun i =>
      (Char.ofNat (0x179 + 2 * i), [Char.ofNat (0x17A + 2 * i)]))) ++
    [(Char.ofNat 0x17F, [Char.ofNat 0x73])] ++
    ((List.range 16).map (fun i =>
      (Char.ofNat (0x400 + i), [Char.ofNat (0x450 + i)]))) ++
    ((List.range 32).map (fun i =>
      (Char.ofNat (0x410 + i), [Char.ofNat (0x430 + i)]))) ++
    ((List.range 17).map (fun i =>
      (Char.ofNat (0x460 + 2 * i), [Char.ofNat (0x461 + 2 * i)]))) ++
    ((List.range 27).map (fun i =>
      (Char.ofNat (0x48A + 2 * i), [Char.ofNat (0x48B + 2 * i)]))) ++
    [(Char.ofNat 0x4C0, [Char.ofNat 0x4CF])] ++
    ((List.range 7).map (fun i =>
      (Char.ofNat (0x4C1 + 2 * i), [Char.ofNat (0x4C2 + 2 * i)]))) ++
    ((List.range 24).map (fun i =>
      (Char.ofNat (0x4D0 + 2 * i), [Char.ofNat (0x4D1 + 2 * i)])))

/-- Full case folding of one character (model of `str.casefold`, see
`caseFoldTable`): a string, since ß, İ and ſ fold to more than one or to
different characters. -/
def foldCharF (c : Char) : Str := lookupApplyF caseFoldTable c

/-- The single-character view of a fold image, meaningful for characters
whose full case folding is one character long. -/
def foldChar (c : Char) : Char := (foldCharF c).headD c

/-- Model of `str.casefold` on a whole string: concatenate the full case
foldings of the characters. -/
def caseFoldStr : Str → Str
  | [] => []
  | c :: t => foldCharF c ++ caseFoldStr t

/-- Collapse every whitespace run into a single ordinary space, the effect
of `re.sub(r"\s+", " ", s)` (main.py line 686). -/
def squeezeWs : Str → Str
  | [] => []
  | c :: t =>
    if pyIsSpace c then
      let r := squeezeWs t
      if r.head? = some ' ' then r else ' ' :: r
    else c :: squeezeWs t

/-- Drop a trailing run of whitespace (the right half of `str.strip`). -/
def dropTrailingWs : Str → Str
  | [] => []
  | c :: t =>
    match dropTrailingWs t with
    | [] => if pyIsSpace c then [] else [c]
    | r => c :: r

/-- Model of `str.strip()`: drop leading and trailing whitespace. -/
def pyStrip (l : Str) : Str := dropTrailingWs (l.dropWhile pyIsSpace)

/-- The flexible name normalization `_normalize_pib_flexible`
(main.py lines 642-688): NFKC normalization, space-variant replacement,
Latin-to-Cyrillic confusable folding, apostrophe/dash removal,
punctuation-to-space, whitespace collapse with trim, case fold. -/
def normalizePibFlexible (s : Str) : Str :=
  let s1 := s.map (lookupApply nfkcPairs)
  let s2 := s1.map (lookupApply spaceVariantPairs)
  let s3 := s2.map (lookupApply translatePairs)
  let s4 := s3.filter (fun c => !(aposChars.contains c))
  let s5 := s4.map (fun c => if pyIsWord c || pyIsSpace c then c else ' ')
  let s6 := pyStrip (squeezeWs s5)
  caseFoldStr s6

/-- The normalization pipeline up to (and excluding) whitespace collapse:
steps (1)-(5) of `_normalize_pib_flexible`, named so the proofs can speak
about the intermediate string. -/
def normStage5 (s : Str) : Str :=
  ((((s.map (lookupApply nfkcPairs)).map
      (lookupApply spaceVariantPairs)).map
      (lookupApply translatePairs)).filter
      (fun c => !(aposChars.contains c))).map
    (fun c => if pyIsWord c || pyIsSpace c then c else ' ')

/-- The string `O'Brien-Смiт` (apostrophe U+0027; С U+0421, м U+043C,
Latin i, т U+0442). -/
def exNameLatin : Str :=
  ['O', Char.ofNat 0x27, 'B', 'r', 'i', 'e', 'n', Char.ofNat 0x2D,
   Char.ofNat 0x421, Char.ofNat 0x43C, 'i', Char.ofNat 0x442]

/-- The string `ОʼБРІЄН СМІТ` (О U+041E, ʼ U+02BC, Б U+0411, Р U+0420,
І U+0406, Є U+0404, Н U+041D, space, С U+0421, М U+041C, І U+0406,
Т U+0422). -/
def exNameCyr : Str :=
  [Char.ofNat 0x41E, Char.ofNat 0x2BC, Char.ofNat 0x411, Char.ofNat 0x420,
   Char.ofNat 0x406, Char.ofNat 0x404, Char.ofNat 0x41D, ' ',
   Char.ofNat 0x421, Char.ofNat 0x41C, Char.ofNat 0x406, Char.ofNat 0x422]

/-- A character that survives the normalization pipeline unchanged: a word
character, not whitespace, fixed by the confusable table and by case
folding. -/
def stableChar (c : Char) : Prop :=
  pyIsWord c = true ∧ pyIsSpace c = false ∧
    lookupApply translatePairs c = c ∧ foldCharF c = [c]

/-- Every character of a normalized string is an ordinary space or a stable
word character. -/
def okChar (c : Char) : Prop := c = ' ' ∨ stableChar c

/-- No two adjacent whitespace characters. -/
def noDbl : Str → Bool
  | [] => true
  | a :: t =>
    (match t with
     | [] => true
     | b :: _ => !(pyIsSpace a && pyIsSpace b)) && noDbl t

/-- The first character, if any, is not whitespace. -/
def headNotSp : Str → Bool
  | [] => true
  | c :: _ => !pyIsSpace c

/-- The last character, if any, is not whitespace. -/
def lastNotSp : Str → Bool
  | [] => true
  | [c] => !pyIsSpace c
  | _ :: b :: t => lastNotSp (b :: t)

lemma lookupApply_cases (t : List (Char × Char)) (c : Char) :
    lookupApply t c = c ∨
      ∃ p ∈ t, p.1 = c ∧ lookupApply t c = p.2 := by
  induction t with
  | nil => exact Or.inl rfl
  | cons p ps ih =>
    by_cases h : p.1 = c
    · exact Or.inr ⟨p, List.mem_cons_self .., h, by simp [lookupApply, h]⟩
    · rcases ih with h1 | ⟨q, hq, hqc, he⟩
      · left; simpa [lookupApply, h] using h1
      · refine Or.inr ⟨q, List.mem_cons_of_mem _ hq, hqc, ?_⟩
        simpa [lookupApply, h] using he

lemma lookupApply_eq_of_forall_ne {t : List (Char × Char)} {c : Char}
    (h : ∀ p ∈ t, p.1 ≠ c) : lookupApply t c = c := by
  induction t with
  | nil => rfl
  | cons p ps ih =>
    have hp : p.1 ≠ c := h p (List.mem_cons_self ..)
    simpa [lookupApply, hp] using ih (fun q hq => h q (List.mem_cons_of_mem _ hq))

lemma forall_of_all {t : List (Char × Char)} {q : Char × Char → Bool}
    (h : t.all q = true) : ∀ p ∈ t, q p = true :=
  List.all_eq_true.mp h

lemma list_map_id_of {l : List Char} {f : Char → Char}
    (h : ∀ a ∈ l, f a = a) : l.map f = l := by
  induction l with
  | nil => rfl
  | cons a t ih =>
    simp only [List.map_cons, h a (List.mem_cons_self ..),
      ih (fun b hb => h b (List.mem_cons_of_mem _ hb))]

lemma list_filter_id_of {l : List Char} {p : Char → Bool}
    (h : ∀ a ∈ l, p a = true) : l.filter p = l := by
  induction l with
  | nil => rfl
  | cons a t ih =>
    simp only [List.filter_cons, h a (List.mem_cons_self ..), if_true,
      ih (fun b hb => h b (List.mem_cons_of_mem _ hb))]

lemma word_not_space {c : Char} (h : pyIsWord c = true) : pyIsSpace c = false := by
  simp only [pyIsWord, Bool.or_eq_true, Bool.and_eq_true, decide_eq_true_eq,
    Bool.not_eq_true', decide_eq_false_iff_not] at h
  simp only [pyIsSpace, Bool.or_eq_true, Bool.and_eq_true, decide_eq_true_eq,
    Bool.or_eq_false_iff, Bool.and_eq_false_iff, decide_eq_false_iff_not]
  omega

lemma space_of_eq_space {c : Char} (h : c = ' ') : pyIsSpace c = true := by
  subst h; decide

lemma word_ne_of_not_word {t : List (Char × Char)} {c : Char}
    (hall : t.all (fun p => !pyIsWord p.1) = true) (hc : pyIsWord c = true) :
    lookupApply t c = c := by
  refine lookupApply_eq_of_forall_ne (fun p hp he => ?_)
  have := forall_of_all hall p hp
  rw [he, hc] at this
  exact absurd this (by decide)

lemma allP {α : Type} {t : List α} {q : α → Bool}
    (h : t.all q = true) : ∀ p ∈ t, q p = true :=
  List.all_eq_true.mp h

lemma lookupApplyF_cases (t : List (Char × Str)) (c : Char) :
    lookupApplyF t c = [c] ∨
      ∃ p ∈ t, p.1 = c ∧ lookupApplyF t c = p.2 := by
  induction t with
  | nil => exact Or.inl rfl
  | cons p ps ih =>
    by_cases h : p.1 = c
    · exact Or.inr ⟨p, List.mem_cons_self .., h, by simp [lookupApplyF, h]⟩
    · rcases ih with h1 | ⟨q, hq, hqc, he⟩
      · left; simpa [lookupApplyF, h] using h1
      · refine Or.inr ⟨q, List.mem_cons_of_mem _ hq, hqc, ?_⟩
        simpa [lookupApplyF, h] using he

set_option maxRecDepth 8000 in
lemma foldTable_not_space :
    caseFoldTable.all (fun p => !pyIsSpace p.1 && !(p.1 == ' ') &&
      p.2.all (fun d => !pyIsSpace d && !(d == ' '))) = true := by
  decide

set_option maxRecDepth 8000 in
set_option maxHeartbeats 2000000 in
lemma foldTable_single_ok :
    caseFoldTable.all (fun p =>
      !(lookupApply translatePairs p.1 == p.1) || !(p.2.length == 1) ||
        p.2.all (fun d => pyIsWord d && (lookupApply translatePairs d == d) &&
          (lookupApplyF caseFoldTable d == [d]))) = true := by
  decide

lemma singleFold_eq {c : Char} (h : (foldCharF c).length = 1) :
    foldCharF c = [foldChar c] := by
  cases hf : foldCharF c with
  | nil => rw [hf] at h; cases h
  | cons d t =>
    cases t with
    | nil => rw [foldChar, hf]; rfl
    | cons e t2 =>
      rw [hf] at h
      simp at h

lemma fold_space_eq {c : Char} (h : (foldCharF c).length = 1) :
    pyIsSpace (foldChar c) = pyIsSpace c := by
  rcases lookupApplyF_cases caseFoldTable c with hf | ⟨p, hp, hp1, hpe⟩
  · rw [foldChar, foldCharF, hf]
    rfl
  · have ht := allP foldTable_not_space p hp
    simp only [Bool.and_eq_true, Bool.not_eq_true'] at ht
    have hfc : foldCharF c = p.2 := hpe
    have hd : foldChar c ∈ p.2 := by
      rw [← hfc, singleFold_eq h]
      exact List.mem_singleton.mpr rfl
    have hds := allP ht.2 _ hd
    simp only [Bool.and_eq_true, Bool.not_eq_true'] at hds
    rw [hds.1, ← hp1, ht.1.1]

lemma fold_eq_space_iff {c : Char} (h : (foldCharF c).length = 1) :
    foldChar c = ' ' ↔ c = ' ' := by
  rcases lookupApplyF_cases caseFoldTable c with hf | ⟨p, hp, hp1, hpe⟩
  · rw [foldChar, foldCharF, hf]
    exact Iff.rfl
  · have ht := allP foldTable_not_space p hp
    simp only [Bool.and_eq_true, Bool.not_eq_true', beq_eq_false_iff_ne,
      ne_eq] at ht
    have hfc : foldCharF c = p.2 := hpe
    have hd : foldChar c ∈ p.2 := by
      rw [← hfc, singleFold_eq h]
      exact List.mem_singleton.mpr rfl
    have hds := allP ht.2 _ hd
    simp only [Bool.and_eq_true, Bool.not_eq_true', beq_eq_false_iff_ne,
      ne_eq] at hds
    constructor
    · intro hx
      exact absurd hx hds.2
    · intro hx
      rw [hx] at hp1
      exact absurd hp1 ht.1.2

lemma stable_fold {c : Char} (h : (foldCharF c).length = 1)
    (hw : pyIsWord c = true)
    (ht : lookupApply translatePairs c = c) : stableChar (foldChar c) := by
  rcases lookupApplyF_cases caseFoldTable c with hf | ⟨p, hp, hp1, hpe⟩
  · have hfc : foldChar c = c := by
      rw [foldChar, foldCharF, hf]
      rfl
    rw [hfc]
    exact ⟨hw, word_not_space hw, ht, hf⟩
  · have hns := allP foldTable_not_space p hp
    simp only [Bool.and_eq_true, Bool.not_eq_true'] at hns
    have hso := allP foldTable_single_ok p hp
    have hfc : foldCharF c = p.2 := hpe
    have hlen : (p.2.length == 1) = true := by
      rw [← hfc]
      exact beq_iff_eq.mpr h
    have htr : (lookupApply translatePairs p.1 == p.1) = true := by
      rw [hp1]
      exact beq_iff_eq.mpr ht
    simp only [htr, hlen, Bool.not_true, Bool.false_or] at hso
    have hd : foldChar c ∈ p.2 := by
      rw [← hfc, singleFold_eq h]
      exact List.mem_singleton.mpr rfl
    have hds := allP hso _ hd
    have hdns := allP hns.2 _ hd
    simp only [Bool.and_eq_true, beq_iff_eq, Bool.not_eq_true'] at hds hdns
    exact ⟨hds.1.1, hdns.1, hds.1.2, hds.2⟩

lemma trans_stable (c : Char) :
    lookupApply translatePairs (lookupApply translatePairs c) =
      lookupApply translatePairs c := by
  rcases lookupApply_cases translatePairs c with h | ⟨q, hq, _, he⟩
  · rw [h, h]
  · have hall : translatePairs.all
        (fun p => lookupApply translatePairs p.2 == p.2) = true := by decide
    have t2 := forall_of_all hall q hq
    rw [he]
    exact beq_iff_eq.mp t2

lemma list_contains_false {l : List Char} {c : Char}
    (h : ∀ a ∈ l, ¬a = c) : l.contains c = false := by
  induction l with
  | nil => rfl
  | cons a t ih =>
    have ha : ¬c = a := fun he => h a (List.mem_cons_self ..) he.symm
    simp only [List.contains_cons, beq_eq_false_iff_ne, ne_eq, Bool.or_eq_false_iff]
    exact ⟨ha, ih (fun b hb => h b (List.mem_cons_of_mem _ hb))⟩

lemma noDbl_cons_cons (a b : Char) (t : Str) :
    noDbl (a :: b :: t) = (!(pyIsSpace a && pyIsSpace b) && noDbl (b :: t)) := rfl

lemma noDbl_tail {a : Char} {t : Str} (h : noDbl (a :: t) = true) :
    noDbl t = true := by
  cases t with
  | nil => rfl
  | cons b r =>
    rw [noDbl_cons_cons] at h
    simp only [Bool.and_eq_true] at h
    exact h.2

lemma noDbl_pair {a b : Char} {t : Str} (h : noDbl (a :: b :: t) = true) :
    (pyIsSpace a && pyIsSpace b) = false := by
  rw [noDbl_cons_cons] at h
  simp only [Bool.and_eq_true, Bool.not_eq_true'] at h
  exact h.1

lemma squeezeWs_mem {l : Str} {c : Char} (h : c ∈ squeezeWs l) :
    c = ' ' ∨ (c ∈ l ∧ pyIsSpace c = false) := by
  induction l with
  | nil => simp [squeezeWs] at h
  | cons a t ih =>
    have step : ∀ d, c = d ∨ c ∈ squeezeWs t →
        c = ' ' ∨ (c ∈ a :: t ∧ pyIsSpace c = false) → True := fun _ _ _ => trivial
    clear step
    by_cases ha : pyIsSpace a
    · rw [squeezeWs, if_pos ha] at h
      by_cases hh : (squeezeWs t).head? = some ' '
      · rw [if_pos hh] at h
        rcases ih h with h' | ⟨h1, h2⟩
        · exact Or.inl h'
        · exact Or.inr ⟨List.mem_cons_of_mem _ h1, h2⟩
      · rw [if_neg hh] at h
        rcases List.mem_cons.mp h with h' | h'
        · exact Or.inl h'
        · rcases ih h' with h'' | ⟨h1, h2⟩
          · exact Or.inl h''
          · exact Or.inr ⟨List.mem_cons_of_mem _ h1, h2⟩
    · rw [squeezeWs, if_neg ha] at h
      rcases List.mem_cons.mp h with h | h
      · subst h; exact Or.inr ⟨List.mem_cons_self .., by simpa using ha⟩
      · rcases ih h with h' | ⟨h1, h2⟩
        · exact Or.inl h'
        · exact Or.inr ⟨List.mem_cons_of_mem _ h1, h2⟩

lemma squeezeWs_space_head {l : Str} {b : Char} {r : Str}
    (h : squeezeWs l = b :: r) (hb : pyIsSpace b = true) : b = ' ' := by
  have : b ∈ squeezeWs l := h ▸ List.mem_cons_self ..
  rcases squeezeWs_mem this with h' | ⟨_, h2⟩
  · exact h'
  · rw [hb] at h2; cases h2

lemma squeezeWs_noDbl (l : Str) : noDbl (squeezeWs l) = true := by
  induction l with
  | nil => rfl
  | cons a t ih =>
    by_cases ha : pyIsSpace a
    · rw [squeezeWs, if_pos ha]
      by_cases hh : (squeezeWs t).head? = some ' '
      · simpa [hh] using ih
      · simp only [hh, if_false]
        cases hr : squeezeWs t with
        | nil => rfl
        | cons b r =>
          rw [noDbl_cons_cons]
          have hbs : pyIsSpace b = false := by
            by_cases hbs' : pyIsSpace b = true
            · refine absurd ?_ hh
              rw [hr, squeezeWs_space_head hr hbs']
              rfl
            · exact Bool.eq_false_iff.mpr hbs'
          rw [← hr, ih]
          simp [hbs]
    · rw [squeezeWs, if_neg ha]
      cases hr : squeezeWs t with
      | nil => rfl
      | cons b r =>
        rw [noDbl_cons_cons, ← hr, ih]
        simp [Bool.eq_false_iff.mpr ha]

lemma dropWhile_headNotSp (l : Str) :
    headNotSp (l.dropWhile pyIsSpace) = true := by
  induction l with
  | nil => rfl
  | cons a t ih =>
    by_cases ha : pyIsSpace a
    · rw [List.dropWhile_cons, if_pos ha]; exact ih
    · rw [List.dropWhile_cons, if_neg ha]
      simpa [headNotSp] using Bool.eq_false_iff.mpr ha

lemma dropWhile_noDbl {l : Str} (h : noDbl l = true) :
    noDbl (l.dropWhile pyIsSpace) = true := by
  induction l with
  | nil => exact h
  | cons a t ih =>
    by_cases ha : pyIsSpace a
    · rw [List.dropWhile_cons, if_pos ha]; exact ih (noDbl_tail h)
    · rw [List.dropWhile_cons, if_neg ha]; exact h

lemma dropWhile_mem {l : Str} {c : Char} (h : c ∈ l.dropWhile pyIsSpace) :
    c ∈ l := by
  induction l with
  | nil => exact h
  | cons a t ih =>
    by_cases ha : pyIsSpace a
    · rw [List.dropWhile_cons, if_pos ha] at h
      exact List.mem_cons_of_mem _ (ih h)
    · rw [List.dropWhile_cons, if_neg ha] at h
      exact h

lemma dtw_mem {l : Str} {c : Char} (h : c ∈ dropTrailingWs l) : c ∈ l := by
  induction l with
  | nil => exact h
  | cons a t ih =>
    rw [dropTrailingWs] at h
    cases hr : dropTrailingWs t with
    | nil =>
      rw [hr] at h
      by_cases ha : pyIsSpace a
      · rw [if_pos ha] at h; cases h
      · rw [if_neg ha] at h
        rcases List.mem_singleton.mp h with rfl
        exact List.mem_cons_self ..
    | cons b r =>
      rw [hr] at h
      rcases List.mem_cons.mp h with rfl | h'
      · exact List.mem_cons_self ..
      · exact List.mem_cons_of_mem _ (ih (hr ▸ h'))

lemma dtw_lastNotSp (l : Str) : lastNotSp (dropTrailingWs l) = true := by
  induction l with
  | nil => rfl
  | cons a t ih =>
    rw [dropTrailingWs]
    cases hr : dropTrailingWs t with
    | nil =>
      by_cases ha : pyIsSpace a
      · rw [if_pos ha]; rfl
      · rw [if_neg ha]
        simpa [lastNotSp] using Bool.eq_false_iff.mpr ha
    | cons b r =>
      show lastNotSp (a :: b :: r) = true
      rw [lastNotSp, ← hr]
      exact ih

lemma dtw_shape (a : Char) (t : Str) :
    dropTrailingWs (a :: t) = [] ∨ ∃ r, dropTrailingWs (a :: t) = a :: r := by
  rw [dropTrailingWs]
  cases dropTrailingWs t with
  | nil =>
    by_cases ha : pyIsSpace a
    · rw [if_pos ha]; exact Or.inl rfl
    · rw [if_neg ha]; exact Or.inr ⟨[], rfl⟩
  | cons b r => exact Or.inr ⟨b :: r, rfl⟩

lemma dtw_headNotSp {l : Str} (h : headNotSp l = true) :
    headNotSp (dropTrailingWs l) = true := by
  cases l with
  | nil => rfl
  | cons a t =>
    rcases dtw_shape a t with h' | ⟨r, h'⟩
    · rw [h']; rfl
    · rw [h']; exact h

lemma dtw_noDbl {l : Str} (h : noDbl l = true) :
    noDbl (dropTrailingWs l) = true := by
  induction l with
  | nil => rfl
  | cons a t ih =>
    rw [dropTrailingWs]
    cases hr : dropTrailingWs t with
    | nil =>
      by_cases ha : pyIsSpace a
      · rw [if_pos ha]; rfl
      · rw [if_neg ha]; rfl
    | cons b r =>
      show noDbl (a :: b :: r) = true
      rw [noDbl_cons_cons, ← hr, ih (noDbl_tail h)]
      cases t with
      | nil => simp [dropTrailingWs] at hr
      | cons c t' =>
        rcases dtw_shape c t' with h' | ⟨r', h'⟩
        · rw [h'] at hr; cases hr
        · rw [h'] at hr
          have hbc : b = c := (List.cons.injEq .. ▸ hr).1.symm
          subst hbc
          rw [noDbl_pair h]
          rfl

lemma caseFoldStr_mem {l : Str} {d : Char} (h : d ∈ caseFoldStr l) :
    ∃ c ∈ l, d ∈ foldCharF c := by
  induction l with
  | nil => cases h
  | cons a t ih =>
    rw [caseFoldStr] at h
    rcases List.mem_append.mp h with h1 | h1
    · exact ⟨a, List.mem_cons_self .., h1⟩
    · rcases ih h1 with ⟨c, hc, hd⟩
      exact ⟨c, List.mem_cons_of_mem _ hc, hd⟩

lemma caseFoldStr_eq_map {l : Str} (h : ∀ c ∈ l, (foldCharF c).length = 1) :
    caseFoldStr l = l.map foldChar := by
  induction l with
  | nil => rfl
  | cons a t ih =>
    rw [caseFoldStr, singleFold_eq (h a (List.mem_cons_self ..)),
      ih (fun c hc => h c (List.mem_cons_of_mem _ hc)), List.map_cons,
      List.singleton_append]

lemma caseFoldStr_id {l : Str} (h : ∀ c ∈ l, foldCharF c = [c]) :
    caseFoldStr l = l := by
  induction l with
  | nil => rfl
  | cons a t ih =>
    rw [caseFoldStr, h a (List.mem_cons_self ..),
      ih (fun c hc => h c (List.mem_cons_of_mem _ hc)), List.singleton_append]

lemma noDbl_map_fold {l : Str} (hs : ∀ c ∈ l, (foldCharF c).length = 1)
    (h : noDbl l = true) : noDbl (l.map foldChar) = true := by
  induction l with
  | nil => rfl
  | cons a t ih =>
    cases t with
    | nil => rfl
    | cons b r =>
      rw [List.map_cons, List.map_cons, noDbl_cons_cons,
        fold_space_eq (hs a (List.mem_cons_self ..)),
        fold_space_eq (hs b (List.mem_cons_of_mem _ (List.mem_cons_self ..))),
        ← List.map_cons,
        ih (fun c hc => hs c (List.mem_cons_of_mem _ hc)) (noDbl_tail h),
        noDbl_pair h]
      rfl

lemma headNotSp_map_fold {l : Str} (hs : ∀ c ∈ l, (foldCharF c).length = 1)
    (h : headNotSp l = true) : headNotSp (l.map foldChar) = true := by
  cases l with
  | nil => rfl
  | cons a t =>
    show (!pyIsSpace (foldChar a)) = true
    rw [fold_space_eq (hs a (List.mem_cons_self ..))]
    exact h

lemma lastNotSp_map_fold {l : Str} (hs : ∀ c ∈ l, (foldCharF c).length = 1)
    (h : lastNotSp l = true) : lastNotSp (l.map foldChar) = true := by
  induction l with
  | nil => rfl
  | cons a t ih =>
    cases t with
    | nil =>
      show (!pyIsSpace (foldChar a)) = true
      rw [fold_space_eq (hs a (List.mem_cons_self ..))]
      exact h
    | cons b r =>
      exact ih (fun c hc => hs c (List.mem_cons_of_mem _ hc)) h

lemma norm_eq (s : Str) : normalizePibFlexible s =
    caseFoldStr (pyStrip (squeezeWs (normStage5 s))) := rfl

lemma stage3_ok (s : Str) (hsf : ∀ c ∈ s, (foldCharF c).length = 1) :
    ∀ c ∈ ((s.map (lookupApply nfkcPairs)).map
        (lookupApply spaceVariantPairs)).map (lookupApply translatePairs),
      lookupApply translatePairs c = c ∧ (foldCharF c).length = 1 := by
  intro c hc
  rcases List.mem_map.mp hc with ⟨f, hf, rfl⟩
  refine ⟨trans_stable f, ?_⟩
  rcases lookupApply_cases translatePairs f with he | ⟨p, hp, _, he⟩
  · rw [he]
    rcases List.mem_map.mp hf with ⟨g, hg, rfl⟩
    rcases lookupApply_cases spaceVariantPairs g with he2 | ⟨q, hq, _, he2⟩
    · rw [he2]
      rcases List.mem_map.mp hg with ⟨x, hx, rfl⟩
      rcases lookupApply_cases nfkcPairs x with he3 | ⟨w, hw, _, he3⟩
      · rw [he3]
        exact hsf x hx
      · rw [he3]
        have := allP (show nfkcPairs.all
          (fun p => (foldCharF p.2).length == 1) = true by decide) w hw
        simpa using this
    · rw [he2]
      have := allP (show spaceVariantPairs.all
        (fun p => (foldCharF p.2).length == 1) = true by decide) q hq
      simpa using this
  · rw [he]
    have := allP (show translatePairs.all
      (fun p => (foldCharF p.2).length == 1) = true by decide) p hp
    simpa using this

lemma preZ_ok (s : Str) (hsf : ∀ c ∈ s, (foldCharF c).length = 1) :
    ∀ c ∈ pyStrip (squeezeWs (normStage5 s)),
      (c = ' ' ∨ (pyIsWord c = true ∧ pyIsSpace c = false ∧
        lookupApply translatePairs c = c)) ∧ (foldCharF c).length = 1 := by
  intro c hc
  have hc2 := dropWhile_mem (dtw_mem hc)
  rcases squeezeWs_mem hc2 with rfl | ⟨hc3, hns⟩
  · exact ⟨Or.inl rfl, by decide⟩
  · simp only [normStage5] at hc3
    rcases List.mem_map.mp hc3 with ⟨e, he, hpe⟩
    have he3 := List.mem_of_mem_filter he
    have hst3 := stage3_ok s hsf e he3
    by_cases hw : (pyIsWord e || pyIsSpace e) = true
    · rw [if_pos hw] at hpe
      subst hpe
      have hword : pyIsWord e = true := by
        rcases Bool.or_eq_true .. ▸ hw with h' | h'
        · exact h'
        · rw [h'] at hns
          cases hns
      exact ⟨Or.inr ⟨hword, hns, hst3.1⟩, hst3.2⟩
    · rw [if_neg hw] at hpe
      subst hpe
      cases hns

lemma norm_mem_ok (s : Str) (hsf : ∀ c ∈ s, (foldCharF c).length = 1) :
    ∀ c ∈ normalizePibFlexible s, okChar c := by
  intro d hd
  rw [norm_eq] at hd
  rcases caseFoldStr_mem hd with ⟨c, hc, hdf⟩
  have hz := preZ_ok s hsf c hc
  rcases hz.1 with rfl | ⟨hw, hns, htr⟩
  · have hsp : foldCharF ' ' = [' '] := by decide
    rw [hsp] at hdf
    rcases List.mem_singleton.mp hdf with rfl
    exact Or.inl rfl
  · rw [singleFold_eq hz.2] at hdf
    rcases List.mem_singleton.mp hdf with rfl
    exact Or.inr (stable_fold hz.2 hw htr)

lemma squeeze_id {l : Str} (hok : ∀ c ∈ l, okChar c) (hnd : noDbl l = true) :
    squeezeWs l = l := by
  induction l with
  | nil => rfl
  | cons a t ih =>
    have iht := ih (fun c hc => hok c (List.mem_cons_of_mem _ hc)) (noDbl_tail hnd)
    rcases hok a (List.mem_cons_self ..) with rfl | hst
    · rw [squeezeWs, if_pos (by decide)]
      simp only [iht]
      cases t with
      | nil => simp
      | cons b r =>
        have hb : pyIsSpace b = false := by
          have hp := noDbl_pair hnd
          have h32 : pyIsSpace ' ' = true := by decide
          rw [h32] at hp
          simpa using hp
        have hbne : ¬((b :: r).head? = some ' ') := by
          simp only [List.head?_cons, Option.some.injEq]
          intro h
          rw [h] at hb
          exact absurd hb (by decide)
        rw [if_neg hbne]
    · have hna : ¬(pyIsSpace a = true) := by rw [hst.2.1]; decide
      rw [squeezeWs, if_neg hna, iht]

lemma dtw_id {l : Str} (hl : lastNotSp l = true) : dropTrailingWs l = l := by
  induction l with
  | nil => rfl
  | cons a t ih =>
    cases t with
    | nil =>
      have ha : pyIsSpace a = false := by simpa [lastNotSp] using hl
      simp [dropTrailingWs, ha]
    | cons b r =>
      have ih' : dropTrailingWs (b :: r) = b :: r := ih hl
      rw [dropTrailingWs, ih']

lemma norm_id {l : Str} (hok : ∀ c ∈ l, okChar c) (hnd : noDbl l = true)
    (hh : headNotSp l = true) (hl : lastNotSp l = true) :
    normalizePibFlexible l = l := by
  have e1 : l.map (lookupApply nfkcPairs) = l := list_map_id_of (fun a ha => by
    rcases hok a ha with rfl | hst
    · decide
    · exact word_ne_of_not_word (by decide) hst.1)
  have e2 : l.map (lookupApply spaceVariantPairs) = l := list_map_id_of (fun a ha => by
    rcases hok a ha with rfl | hst
    · decide
    · exact word_ne_of_not_word (by decide) hst.1)
  have e3 : l.map (lookupApply translatePairs) = l := list_map_id_of (fun a ha => by
    rcases hok a ha with rfl | hst
    · decide
    · exact hst.2.2.1)
  have e4 : l.filter (fun c => !(aposChars.contains c)) = l :=
    list_filter_id_of (fun a ha => by
      rcases hok a ha with rfl | hst
      · decide
      · have hc : aposChars.contains a = false := by
          refine list_contains_false (fun b hb hba => ?_)
          have hbw : pyIsWord b = false := by
            have := List.all_eq_true.mp
              (show aposChars.all (fun c => !pyIsWord c) = true by decide) b hb
            simpa using this
          rw [hba, hst.1] at hbw
          exact absurd hbw (by decide)
        rw [hc]
        rfl)
  have e5 : l.map (fun c => if pyIsWord c || pyIsSpace c then c else ' ') = l :=
    list_map_id_of (fun a ha => by
      rcases hok a ha with rfl | hst
      · decide
      · simp [hst.1])
  have e6 : squeezeWs l = l := squeeze_id hok hnd
  have e7 : l.dropWhile pyIsSpace = l := by
    cases l with
    | nil => rfl
    | cons a t =>
      have ha : ¬(pyIsSpace a = true) := by
        have : (!pyIsSpace a) = true := hh
        rw [Bool.not_eq_true'] at this
        rw [this]
        decide
      rw [List.dropWhile_cons, if_neg ha]
  have e8 : dropTrailingWs l = l := dtw_id hl
  have e9 : caseFoldStr l = l := caseFoldStr_id (fun a ha => by
    rcases hok a ha with rfl | hst
    · decide
    · exact hst.2.2.2)
  simp only [normalizePibFlexible, pyStrip]
  rw [e1, e2, e3, e4, e5, e6, e7, e8, e9]

lemma norm_struct (s : Str) (hsf : ∀ c ∈ s, (foldCharF c).length = 1) :
    noDbl (normalizePibFlexible s) = true ∧
      headNotSp (normalizePibFlexible s) = true ∧
      lastNotSp (normalizePibFlexible s) = true := by
  have hz := fun c hc => (preZ_ok s hsf c hc).2
  rw [norm_eq, caseFoldStr_eq_map hz]
  have hnd : noDbl (pyStrip (squeezeWs (normStage5 s))) = true :=
    dtw_noDbl (dropWhile_noDbl (squeezeWs_noDbl _))
  have hh : headNotSp (pyStrip (squeezeWs (normStage5 s))) = true :=
    dtw_headNotSp (dropWhile_headNotSp _)
  have hl : lastNotSp (pyStrip (squeezeWs (normStage5 s))) = true :=
    dtw_lastNotSp _
  exact ⟨noDbl_map_fold hz hnd, headNotSp_map_fold hz hh,
    lastNotSp_map_fold hz hl⟩

/-- The string `İ` (U+0130, Latin capital I with dot above), whose full
case folding is the two characters `i` + U+0307. -/
def exDottedI : Str := [Char.ofNat 0x130]

/-- C9 counterexample: the NameNormalizer is not idempotent.
`normalize("İ")` ends in ASCII `i` followed by the combining dot above
U+0307 (case folding is the last pipeline step), and a second pass folds
that `i` through the confusable table to Cyrillic `і` and replaces the
combining mark, which is neither a word nor a whitespace character, by a
space that is then trimmed: the second result is the single Cyrillic
letter `і`. -/
theorem claim_c9_counterexample :
    ¬(normalizePibFlexible (normalizePibFlexible exDottedI) =
        normalizePibFlexible exDottedI) := by
  decide

/-- C9 amended: the NameNormalizer is idempotent on every input string
none of whose characters has a multi-character full case folding (in the
modelled character set: ß, İ and ſ have multi-character or non-identity
compositions); for such strings a second application returns the first
result unchanged. -/
theorem claim_c9_amended_idempotent_single_fold (s : Str)
    (hsf : ∀ c ∈ s, (foldCharF c).length = 1) :
    normalizePibFlexible (normalizePibFlexible s) = normalizePibFlexible s :=
  norm_id (norm_mem_ok s hsf) (norm_struct s hsf).1 (norm_struct s hsf).2.1
    (norm_struct s hsf).2.2

/-- C9 witness: the amended idempotence applied to the concrete name
`ОʼБРІЄН СМІТ`, all of whose characters case-fold to a single
character. -/
theorem claim_c9_witness :
    (∀ c ∈ exNameCyr, (foldCharF c).length = 1) ∧
      normalizePibFlexible (normalizePibFlexible exNameCyr) =
        normalizePibFlexible exNameCyr :=
  ⟨by decide, claim_c9_amended_idempotent_single_fold exNameCyr (by decide)⟩

/-- The string `Oʼбрієн-сміт` (Latin O, ʼ U+02BC, б 0x431, р 0x440, і 0x456,
є 0x454, н 0x43D, hyphen, с 0x441, м 0x43C, і 0x456, т 0x442). -/
def exNameAmendA : Str :=
  ['O', Char.ofNat 0x2BC, Char.ofNat 0x431, Char.ofNat 0x440, Char.ofNat 0x456,
   Char.ofNat 0x454, Char.ofNat 0x43D, Char.ofNat 0x2D, Char.ofNat 0x441,
   Char.ofNat 0x43C, Char.ofNat 0x456, Char.ofNat 0x442]

/-- The string `О'БРІЄН-СМІТ` (О 0x41E, apostrophe U+0027, Б 0x411, Р 0x420,
І 0x406, Є 0x404, Н 0x41D, hyphen, С 0x421, М 0x41C, І 0x406, Т 0x422). -/
def exNameAmendB : Str :=
  [Char.ofNat 0x41E, Char.ofNat 0x27, Char.ofNat 0x411, Char.ofNat 0x420,
   Char.ofNat 0x406, Char.ofNat 0x404, Char.ofNat 0x41D, Char.ofNat 0x2D,
   Char.ofNat 0x421, Char.ofNat 0x41C, Char.ofNat 0x406, Char.ofNat 0x422]

/-- C3 counterexample: `normalize("O'Brien-Смiт")` and
`normalize("ОʼБРІЄН СМІТ")` are different canonical strings.  The
confusable table folds only visual look-alikes, so Latin B, r, n, e map to
В, r, n, е rather than to the transliterations Б, р, н, є, and the hyphen
of the first string is stripped outright while the space of the second
survives; the first input normalizes to `овrіеnсміт` and the second to
`обрієн сміт`. -/
theorem claim_c3_counterexample :
    ¬(normalizePibFlexible exNameLatin = normalizePibFlexible exNameCyr) := by
  decide

/-- C3 amended: apostrophe, hyphen-presence and case variants of a name
that differ only in the genuinely confusable Latin look-alike O do
normalize to the same canonical string: `normalize("Oʼбрієн-сміт") =
normalize("О'БРІЄН-СМІТ")`. -/
theorem claim_c3_amended_confusable_variants_equal :
    normalizePibFlexible exNameAmendA = normalizePibFlexible exNameAmendB := by
  decide

/-- A cell of an object-dtype pandas column: missing (`NaN`) or a text
value.  Datetime64-typed columns take a separate branch of the RANGE
operator (filters_core.py line 36) and are outside this embedding, which
covers the free-text columns of the registry. -/
inductive PValue where
  | nan : PValue
  | vstr : Str → PValue
deriving DecidableEq

/-- Model of `series.astype(str)` applied to one cell: pandas renders a
missing value as the three-letter string `nan`. -/
def pyStr : PValue → Str
  | .nan => ['n', 'a', 'n']
  | .vstr s => s

/-- A calendar date as parsed from `dd.mm.yyyy` text. -/
structure Dt where
  year : Nat
  month : Nat
  day : Nat
deriving DecidableEq

/-- Injective key giving the lexicographic order on dates (month < 16 and
day < 32 for every parsed date). -/
def dtKey (a : Dt) : Nat := (a.year * 16 + a.month) * 32 + a.day

/-- Date comparison used for pandas `Timestamp` ordering. -/
def dtLe (a b : Dt) : Bool := dtKey a ≤ dtKey b

/-- Strict date comparison used for pandas `Timestamp` ordering. -/
def dtLt (a b : Dt) : Bool := dtKey a < dtKey b

/-- ASCII digit test (the regex class `\d` as used on the `dd.mm.yyyy`
pattern). -/
def isDig (c : Char) : Bool := 48 ≤ c.toNat && c.toNat ≤ 57

/-- Numeric value of an ASCII digit. -/
def digVal (c : Char) : Nat := c.toNat - 48

/-- Try to match the regex `\d{2}\.\d{2}\.\d{4}` at the head of the string,
returning the day/month/year digit groups. -/
def matchDateAt : Str → Option (Nat × Nat × Nat)
  | d1 :: d2 :: p1 :: m1 :: m2 :: p2 :: y1 :: y2 :: y3 :: y4 :: _ =>
    if isDig d1 && isDig d2 && p1 = '.' && isDig m1 && isDig m2 && p2 = '.' &&
        isDig y1 && isDig y2 && isDig y3 && isDig y4 then
      some (10 * digVal d1 + digVal d2, 10 * digVal m1 + digVal m2,
        1000 * digVal y1 + 100 * digVal y2 + 10 * digVal y3 + digVal y4)
    else none
  | _ => none

/-- The first `dd.mm.yyyy` pattern in a string, as extracted by
`series.str.extract(r"(\d{2}\.\d{2}\.\d{4})")` (leftmost regex match). -/
def firstDmy : Str → Option (Nat × Nat × Nat)
  | [] => none
  | c :: t =>
    match matchDateAt (c :: t) with
    | some r => some r
    | none => firstDmy t

/-- All `dd.mm.yyyy` patterns of a string in order, with the non-overlapping
left-to-right scan of `re.findall`. -/
def dmyMatches : Str → List (Nat × Nat × Nat)
  | [] => []
  | c :: t =>
    match matchDateAt (c :: t) with
    | some r => r :: dmyMatches (t.drop 9)
    | none => dmyMatches t
termination_by l => l.length
decreasing_by
  · simp only [List.length_cons, List.length_drop]
    omega
  · simp only [List.length_cons]
    omega

/-- Modelled from the spec: the deadline tracker's "valid-until" variant of
the protective-measure rule, which is not part of the sources under `src/`,
extracts the **last** `dd.mm.yyyy` pattern of a field's text.  The scan
walks the findall matches keeping the most recent one. -/
def lastDmy (s : Str) : Option (Nat × Nat × Nat) :=
  lastDmyAux none s
where
  lastDmyAux (acc : Option (Nat × Nat × Nat)) : Str → Option (Nat × Nat × Nat)
    | [] => acc
    | c :: t =>
      match matchDateAt (c :: t) with
      | some r => lastDmyAux (some r) (t.drop 9)
      | none => lastDmyAux acc t
  termination_by l => l.length
  decreasing_by
    · simp only [List.length_cons, List.length_drop]
      omega
    · simp only [List.length_cons]
      omega

/-- Days of a month in the Gregorian calendar. -/
def daysInMonth (y m : Nat) : Nat :=
  if m = 2 then
    if y % 4 = 0 && (!(y % 100 = 0) || y % 400 = 0) then 29 else 28
  else if m = 4 || m = 6 || m = 9 || m = 11 then 30
  else 31

/-- A `dd.mm.yyyy` digit group parses to a `Timestamp` only when it is a
real calendar date inside the pandas `Timestamp` range (1677-09-22 to
2262-04-11); `pd.to_datetime(..., errors="coerce")` turns everything else
into `NaT`. -/
def validDmy (d m y : Nat) : Bool :=
  1 ≤ m && m ≤ 12 && 1 ≤ d && d ≤ daysInMonth y m &&
    dtLe ⟨1677, 9, 22⟩ ⟨y, m, d⟩ && dtLe ⟨y, m, d⟩ ⟨2262, 4, 11⟩

/-- Model of `pd.to_datetime(x, format="%d.%m.%Y", errors="coerce")` on the
result of the date extraction: `NaT` is `none`. -/
def pdToDatetime : Option (Nat × Nat × Nat) → Option Dt
  | none => none
  | some (d, m, y) => if validDmy d m y then some ⟨y, m, d⟩ else none

/-- The operator tag set of `filters_core.Operator` with the operand that
`FilterCondition.value` carries for it: a scalar for `CONTAINS`, `EQUALS`
and `NOT_EQUALS`, and the `(start, end)` pair of optional bounds for
`RANGE`. -/
inductive FilterOp where
  | contains : PValue → FilterOp
  | equals : PValue → FilterOp
  | notEquals : PValue → FilterOp
  | range : Option Dt → Option Dt → FilterOp
deriving DecidableEq

/-- `FilterCondition` of filters_core.py: a column name and an operator
with its operand. -/
structure FilterCondition where
  column : String
  op : FilterOp
deriving DecidableEq

/-- A data frame: the ordered field schema and the rows, each carrying its
stable integer index label and its cells aligned with the schema. -/
structure DFrame where
  columns : List String
  rows : List (Nat × List PValue)
deriving DecidableEq

/-- Cell of a row at a column position. -/
def cellAt (cells : List PValue) (i : Nat) : PValue := cells.getD i .nan

/-- Elementwise pandas equality `series == val`: two texts compare by
equality, and a comparison involving `NaN` is always `False`. -/
def pdEq : PValue → PValue → Bool
  | .vstr a, .vstr b => a = b
  | _, _ => false

/-- The pattern occurs at the head of the list. -/
def headMatch : Str → Str → Bool
  | [], _ => true
  | _ :: _, [] => false
  | a :: as, b :: bs => a = b && headMatch as bs

/-- The pattern occurs as a contiguous substring of the list (Python's
`pat in s`). -/
def isSub (pat : Str) : Str → Bool
  | [] => pat.isEmpty
  | c :: t => headMatch pat (c :: t) || isSub pat t

/-- The regular-expression metacharacters of Python's `re` syntax. -/
def regexMeta : List Char :=
  ['.', '^', '$', '*', '+', '?', Char.ofNat 0x7B, Char.ofNat 0x7D, '[', ']',
   Char.ofNat 0x5C, '|', '(', ')']

/-- Case-insensitive containment.  pandas `str.contains(text, case=False)`
compiles the operand as a regular expression (`regex=True` is the
default); this embedding covers the regex-free fragment: for an operand
containing no character of `regexMeta` the compiled pattern matches
exactly the literal occurrences of the operand, so the test is containment
of the case-folded operand in the case-folded haystack.  Operands with
metacharacters (regex semantics, or `re.error` on an invalid pattern) are
outside this embedding, and the theorems about CONTAINS restrict their
operands accordingly. -/
def containsCI (hay need : Str) : Bool :=
  isSub (caseFoldStr need) (caseFoldStr hay)

/-- One cell against one operator: the per-element predicate of
`_apply_single_condition` (filters_core.py lines 32-67).  For `RANGE` the
first `dd.mm.yyyy` pattern of the cell text is parsed and compared against
whichever bounds are present (`NaT` comparisons are `False`); `CONTAINS`
tests case-insensitive containment of the operand text in the cell text;
`EQUALS`/`NOT_EQUALS` are elementwise pandas equality and its negation. -/
def cellMatches (op : FilterOp) (v : PValue) : Bool :=
  match op with
  | .range lo hi =>
    let d := pdToDatetime (firstDmy (pyStr v))
    (match lo with
     | none => true
     | some l => match d with
       | some x => dtLe l x
       | none => false) &&
    (match hi with
     | none => true
     | some h => match d with
       | some x => dtLe x h
       | none => false)
  | .contains t => containsCI (pyStr v) (pyStr t)
  | .equals t => pdEq v t
  | .notEquals t => !pdEq v t

/-- `_apply_single_condition`: a condition naming a column absent from the
schema filters nothing; otherwise the rows are filtered by the
per-operator cell predicate. -/
def applySingleCondition (df : DFrame) (cond : FilterCondition) : DFrame :=
  match df.columns.findIdx? (fun c => c = cond.column) with
  | none => df
  | some i =>
    { df with rows := df.rows.filter (fun r => cellMatches cond.op (cellAt r.2 i)) }

/-- `apply_filters`: conditions apply left to right, stopping early when
the intermediate frame becomes empty. -/
def applyFilters (df : DFrame) : List FilterCondition → DFrame
  | [] => df
  | c :: cs =>
    let r := applySingleCondition df c
    if r.rows.isEmpty then r else applyFilters r cs

/-- A one-row frame whose single cell is missing (`NaN`). -/
def exDfNan : DFrame := ⟨["f"], [(0, [PValue.nan])]⟩

/-- A one-row frame whose single cell is the text `hi` (no embedded date). -/
def exDfText : DFrame := ⟨["f"], [(0, [PValue.vstr ['h', 'i']])]⟩

/-- C1 counterexample: the record whose `f` cell is NaN survives a
`CONTAINS "a"` filter (NaN is rendered as the text `nan` by `astype(str)`,
which contains `a`) and also survives a `NOT_EQUALS "x"` filter (pandas
elementwise `!=` is `True` on NaN), contradicting the claim that a NaN
field value never matches any CONTAINS operand and never matches
NOT_EQUALS. -/
theorem claim_c1_counterexample :
    (applySingleCondition exDfNan ⟨"f", .contains (.vstr ['a'])⟩).rows =
      [(0, [PValue.nan])] ∧
    (applySingleCondition exDfNan ⟨"f", .notEquals (.vstr ['x'])⟩).rows =
      [(0, [PValue.nan])] := by
  constructor <;> decide

/-- C1 amended: a NaN field value never matches `EQUALS`, and never matches
a `RANGE` condition with at least one bound present; a NaN value always
matches `NOT_EQUALS`; and for every `CONTAINS` operand free of regex
metacharacters (the fragment where the pandas default `regex=True`
coincides with literal matching), a NaN value matches exactly when the
case-folded operand occurs in the text `nan`, the `astype(str)` rendering
of a missing value. -/
theorem claim_c1_amended_nan_matching (val t : PValue) (lo hi : Option Dt)
    (hb : ¬lo = none ∨ ¬hi = none)
    (hlit : (pyStr t).all (fun c => !(regexMeta.contains c)) = true) :
    cellMatches (.equals val) .nan = false ∧
    cellMatches (.range lo hi) .nan = false ∧
    cellMatches (.notEquals val) .nan = true ∧
    cellMatches (.contains t) .nan =
      isSub (caseFoldStr (pyStr t)) (caseFoldStr ['n', 'a', 'n']) := by
  refine ⟨?_, ?_, ?_, rfl⟩
  · cases val <;> rfl
  · cases lo with
    | none =>
      cases hi with
      | none =>
        rcases hb with h | h
        · exact absurd rfl h
        · exact absurd rfl h
      | some h => rfl
    | some l => rfl
  · cases val <;> rfl

/-- C1 witness: the amended statement evaluated at the NaN cell with
operand `x`, lower bound 2025-01-01 and the metacharacter-free CONTAINS
operand `a`. -/
theorem claim_c1_amended_witness :
    cellMatches (.equals (PValue.vstr ['x'])) .nan = false ∧
    cellMatches (.range (some ⟨2025, 1, 1⟩) none) .nan = false ∧
    cellMatches (.notEquals (PValue.vstr ['x'])) .nan = true ∧
    cellMatches (.contains (PValue.vstr ['a'])) .nan =
      isSub (caseFoldStr (pyStr (PValue.vstr ['a'])))
        (caseFoldStr ['n', 'a', 'n']) :=
  claim_c1_amended_nan_matching (PValue.vstr ['x']) (PValue.vstr ['a'])
    (some ⟨2025, 1, 1⟩) none (Or.inl (fun h => Option.noConfusion h))
    (by decide)

/-- C6: under a RANGE condition on a (text-typed) column, a record whose
cell parses no `dd.mm.yyyy` date never survives the filter when at least
one bound is present, and always survives it when both bounds are absent. -/
theorem claim_c6_range_no_date (df : DFrame) (col : String) (i : Nat)
    (lo hi : Option Dt) (id : Nat) (cells : List PValue)
    (hcol : df.columns.findIdx? (fun c => c = col) = some i)
    (hrow : (id, cells) ∈ df.rows)
    (hnodate : pdToDatetime (firstDmy (pyStr (cellAt cells i))) = none) :
    ((¬lo = none ∨ ¬hi = none) →
      (id, cells) ∉ (applySingleCondition df ⟨col, .range lo hi⟩).rows) ∧
    (lo = none → hi = none →
      (id, cells) ∈ (applySingleCondition df ⟨col, .range lo hi⟩).rows) := by
  have hcm : ∀ lo' hi' : Option Dt,
      cellMatches (.range lo' hi') (cellAt cells i) =
        ((match lo' with
          | none => true
          | some _ => false) &&
         (match hi' with
          | none => true
          | some _ => false)) := by
    intro lo' hi'
    cases lo' <;> cases hi' <;> simp [cellMatches, hnodate]
  constructor
  · intro hb hm
    simp only [applySingleCondition, hcol] at hm
    have := (List.mem_filter.mp hm).2
    rw [hcm] at this
    rcases hb with h | h
    · cases lo with
      | none => exact absurd rfl h
      | some l => simp at this
    · cases hi with
      | none => exact absurd rfl h
      | some h' => simp at this
  · intro hlo hhi
    subst hlo
    subst hhi
    simp only [applySingleCondition, hcol]
    refine List.mem_filter.mpr ⟨hrow, ?_⟩
    rw [hcm]
    rfl

/-- C6 witness: the record with text cell `hi` (no date) is removed by a
RANGE with a lower bound and kept by the unbounded RANGE. -/
theorem claim_c6_witness :
    (0, [PValue.vstr ['h', 'i']]) ∉
      (applySingleCondition exDfText ⟨"f", .range (some ⟨2025, 1, 1⟩) none⟩).rows ∧
    (0, [PValue.vstr ['h', 'i']]) ∈
      (applySingleCondition exDfText ⟨"f", .range none none⟩).rows :=
  ⟨(claim_c6_range_no_date exDfText "f" 0 (some ⟨2025, 1, 1⟩) none 0
      [PValue.vstr ['h', 'i']] (by decide) (by decide) (by decide)).1
      (Or.inl (fun h => Option.noConfusion h)),
   (claim_c6_range_no_date exDfText "f" 0 none none 0
      [PValue.vstr ['h', 'i']] (by decide) (by decide) (by decide)).2 rfl rfl⟩

/-- Days in the months strictly before month `m` of year `y`. -/
def daysBeforeMonth (y : Nat) : Nat → Nat
  | 0 => 0
  | 1 => 0
  | m + 1 => daysBeforeMonth y m + daysInMonth y m

/-- Serial day number of a date in the proleptic Gregorian calendar (days
since 0001-01-01); differences of serial numbers model the `.days` of a
pandas `Timedelta`. -/
def serialDt (a : Dt) : Nat :=
  let y := a.year - 1
  365 * y + y / 4 - y / 100 + y / 400 + daysBeforeMonth a.year a.month +
    (a.day - 1)

/-- Model of `date + pd.DateOffset(months=k)`: month arithmetic with the
day-of-month clamped to the end of the target month. -/
def addMonths (a : Dt) (k : Nat) : Dt :=
  let t := a.month - 1 + k
  let y := a.year + t / 12
  let m := t % 12 + 1
  ⟨y, m, min a.day (daysInMonth y m)⟩

/-- The fixed cutoff `pd.Timestamp(2025, 9, 1)` of
`recalc_expiring_and_expired` (main.py line 1598): expiries before it are
legacy and ignored. -/
def cutoff5 : Dt := ⟨2025, 9, 1⟩

/-- Signed number of days from `today` to `exp`. -/
def daysLeft (exp today : Dt) : Int := (serialDt exp : Int) - serialDt today

/-- Classification of a record by the protective-measure rule. -/
inductive Rule1Mark where
  | expired : Rule1Mark
  | expiring : Rule1Mark
deriving DecidableEq

/-- Classification of a record by the case-opening rule. -/
inductive Rule2Mark where
  | warning : Rule2Mark
  | overdue : Rule2Mark
deriving DecidableEq

/-- Per-row protective-measure rule (main.py lines 1622-1647): parse the
first `dd.mm.yyyy` of the measure cell, add six calendar months, skip
expiries before the cutoff, then classify by the signed days left:
negative means `expired`, zero to ten means `expiring`. -/
def rowRule1 (today : Dt) (v : PValue) : Option Rule1Mark :=
  match pdToDatetime (firstDmy (pyStr v)) with
  | none => none
  | some d =>
    let exp := addMonths d 6
    if dtLt exp cutoff5 then none
    else
      let left := daysLeft exp today
      if left < 0 then some .expired
      else if left ≤ 10 then some .expiring
      else none

/-- Per-row case-opening rule (main.py lines 1652-1683): the row takes part
only when the order cell parses a first `dd.mm.yyyy` date and the
case-number cell parses none; zero to twenty days passed means `warning`,
more than twenty means `overdue`. -/
def rowRule2 (today : Dt) (v7 v8 : PValue) : Option Rule2Mark :=
  match pdToDatetime (firstDmy (pyStr v7)) with
  | none => none
  | some b =>
    match pdToDatetime (firstDmy (pyStr v8)) with
    | some _ => none
    | none =>
      let dp : Int := (serialDt today : Int) - serialDt b
      if 0 ≤ dp ∧ dp ≤ 20 then some .warning
      else if 20 < dp then some .overdue
      else none

/-- `recalc_expiring_and_expired`: each row carries its index label and its
measure, order and case-number cells; the four result sets are, in order,
`expired_indices`, `expiring_by5_indices`, `ors_warning_rows`,
`ors_overdue_rows`. -/
def recalcExpiringAndExpired (today : Dt)
    (rows : List (Nat × PValue × PValue × PValue)) :
    List Nat × List Nat × List Nat × List Nat :=
  ((rows.filter (fun p => rowRule1 today p.2.1 == some .expired)).map Prod.fst,
   (rows.filter (fun p => rowRule1 today p.2.1 == some .expiring)).map Prod.fst,
   (rows.filter (fun p => rowRule2 today p.2.2.1 p.2.2.2 == some .warning)).map Prod.fst,
   (rows.filter (fun p => rowRule2 today p.2.2.1 p.2.2.2 == some .overdue)).map Prod.fst)

lemma assoc_eq_of_nodup {α : Type} {rows : List (Nat × α)} {id : Nat}
    {a b : α} (hnd : (rows.map Prod.fst).Nodup)
    (ha : (id, a) ∈ rows) (hb : (id, b) ∈ rows) : a = b := by
  induction rows with
  | nil => cases ha
  | cons p t ih =>
    rw [List.map_cons, List.nodup_cons] at hnd
    rcases List.mem_cons.mp ha with ha' | ha' <;>
      rcases List.mem_cons.mp hb with hb' | hb'
    · rw [← ha'] at hb'
      exact (congrArg Prod.snd hb').symm
    · exfalso
      apply hnd.1
      rw [← ha']
      exact List.mem_map.mpr ⟨(id, b), hb', rfl⟩
    · exfalso
      apply hnd.1
      rw [← hb']
      exact List.mem_map.mpr ⟨(id, a), ha', rfl⟩
    · exact ih hnd.2 ha' hb'

lemma mem_marked_of {α : Type} {rows : List (Nat × α)} {pred : Nat × α → Bool}
    {id : Nat} {a : α} (hmem : (id, a) ∈ rows) (hp : pred (id, a) = true) :
    id ∈ (rows.filter pred).map Prod.fst :=
  List.mem_map.mpr ⟨(id, a), List.mem_filter.mpr ⟨hmem, hp⟩, rfl⟩

lemma not_mem_marked_of {α : Type} {rows : List (Nat × α)}
    {pred : Nat × α → Bool} {id : Nat} {a : α}
    (hnd : (rows.map Prod.fst).Nodup) (hmem : (id, a) ∈ rows)
    (hp : pred (id, a) = false) :
    id ∉ (rows.filter pred).map Prod.fst := by
  intro hm
  rcases List.mem_map.mp hm with ⟨q, hq, hqid⟩
  rcases List.mem_filter.mp hq with ⟨hqrows, hqpred⟩
  have hq2 : (id, q.2) ∈ rows := by
    rw [← hqid]
    exact hqrows
  have h2 : q.2 = a := assoc_eq_of_nodup hnd hq2 hmem
  have hqe : q = (id, a) := by
    obtain ⟨q1, q2⟩ := q
    simp only at hqid h2
    rw [hqid, h2]
  rw [hqe, hp] at hqpred
  cases hqpred

lemma marked_pred_of_mem {α : Type} {rows : List (Nat × α)}
    {pred : Nat × α → Bool} {id : Nat} {a : α}
    (hnd : (rows.map Prod.fst).Nodup) (hmem : (id, a) ∈ rows)
    (hm : id ∈ (rows.filter pred).map Prod.fst) : pred (id, a) = true := by
  rcases List.mem_map.mp hm with ⟨q, hq, hqid⟩
  rcases List.mem_filter.mp hq with ⟨hqrows, hqpred⟩
  have hq2 : (id, q.2) ∈ rows := by
    rw [← hqid]
    exact hqrows
  have h2 : q.2 = a := assoc_eq_of_nodup hnd hq2 hmem
  have hqe : q = (id, a) := by
    obtain ⟨q1, q2⟩ := q
    simp only at hqid h2
    rw [hqid, h2]
  rw [hqe] at hqpred
  exact hqpred

/-- C4: for a record whose measure cell parses a first `dd.mm.yyyy` date
`d` with expiry `d + 6 months`: if the expiry is not before the cutoff and
exactly ten days are left, the record is classified expiring; if the expiry
is not before the cutoff and minus one days are left, it is classified
expired; and if the expiry falls before the cutoff the record is in neither
set regardless of the days left. -/
theorem claim_c4_measure_deadline (today : Dt)
    (rows : List (Nat × PValue × PValue × PValue)) (id : Nat)
    (v5 v7 v8 : PValue) (d : Dt)
    (hnd : (rows.map Prod.fst).Nodup)
    (hmem : (id, v5, v7, v8) ∈ rows)
    (hdate : pdToDatetime (firstDmy (pyStr v5)) = some d) :
    (dtLt (addMonths d 6) cutoff5 = false →
      daysLeft (addMonths d 6) today = 10 →
      id ∈ (recalcExpiringAndExpired today rows).2.1) ∧
    (dtLt (addMonths d 6) cutoff5 = false →
      daysLeft (addMonths d 6) today = -1 →
      id ∈ (recalcExpiringAndExpired today rows).1) ∧
    (dtLt (addMonths d 6) cutoff5 = true →
      id ∉ (recalcExpiringAndExpired today rows).1 ∧
      id ∉ (recalcExpiringAndExpired today rows).2.1) := by
  refine ⟨?_, ?_, ?_⟩
  · intro hc h10
    have hr : rowRule1 today v5 = some .expiring := by
      simp only [rowRule1, hdate, hc, h10]
      norm_num
    exact mem_marked_of hmem (by rw [show (id, v5, v7, v8).2.1 = v5 from rfl, hr]; rfl)
  · intro hc h1
    have hr : rowRule1 today v5 = some .expired := by
      simp only [rowRule1, hdate, hc, h1]
      norm_num
    exact mem_marked_of hmem (by rw [show (id, v5, v7, v8).2.1 = v5 from rfl, hr]; rfl)
  · intro hc
    have hr : rowRule1 today v5 = none := by
      simp only [rowRule1, hdate, hc]
      norm_num
    constructor <;>
      exact not_mem_marked_of hnd hmem
        (by rw [show (id, v5, v7, v8).2.1 = v5 from rfl, hr]; rfl)

/-- C2: a record enters the case-opening warning or overdue set only when
its order cell parses a first `dd.mm.yyyy` date and its case-number cell
parses none; whenever the case-number cell does parse a date (the case is
open), the record is in neither set, regardless of elapsed time. -/
theorem claim_c2_case_deadline (today : Dt)
    (rows : List (Nat × PValue × PValue × PValue)) (id : Nat)
    (v5 v7 v8 : PValue)
    (hnd : (rows.map Prod.fst).Nodup)
    (hmem : (id, v5, v7, v8) ∈ rows) :
    ((id ∈ (recalcExpiringAndExpired today rows).2.2.1 ∨
        id ∈ (recalcExpiringAndExpired today rows).2.2.2) →
      ¬pdToDatetime (firstDmy (pyStr v7)) = none ∧
        pdToDatetime (firstDmy (pyStr v8)) = none) ∧
    (¬pdToDatetime (firstDmy (pyStr v8)) = none →
      id ∉ (recalcExpiringAndExpired today rows).2.2.1 ∧
      id ∉ (recalcExpiringAndExpired today rows).2.2.2) := by
  constructor
  · intro h
    have hsome : ∃ mk, rowRule2 today v7 v8 = some mk := by
      rcases h with hm | hm
      · have hp := marked_pred_of_mem hnd hmem hm
        exact ⟨.warning, by simpa using hp⟩
      · have hp := marked_pred_of_mem hnd hmem hm
        exact ⟨.overdue, by simpa using hp⟩
    rcases hsome with ⟨mk, hmk⟩
    cases h7 : pdToDatetime (firstDmy (pyStr v7)) with
    | none =>
      rw [rowRule2, h7] at hmk
      cases hmk
    | some b =>
      cases h8 : pdToDatetime (firstDmy (pyStr v8)) with
      | none => exact ⟨fun hx => Option.noConfusion hx, rfl⟩
      | some x =>
        rw [rowRule2, h7, h8] at hmk
        cases hmk
  · intro h8ne
    cases h8 : pdToDatetime (firstDmy (pyStr v8)) with
    | none => exact absurd h8 h8ne
    | some x =>
      have hr : rowRule2 today v7 v8 = none := by
        cases h7 : pdToDatetime (firstDmy (pyStr v7)) with
        | none => rw [rowRule2, h7]
        | some b => rw [rowRule2, h7, h8]
      constructor <;>
        exact not_mem_marked_of hnd hmem
          (by rw [show (id, v5, v7, v8).2.2.1 = v7 from rfl,
                show (id, v5, v7, v8).2.2.2 = v8 from rfl, hr]; rfl)

/-- Reference date used by the concrete deadline witnesses. -/
def exToday : Dt := ⟨2025, 12, 1⟩

/-- Three measure rows: day count left 10, day count left minus one, and an
expiry before the cutoff. -/
def exRowsC4 : List (Nat × PValue × PValue × PValue) :=
  [(0, .vstr "11.06.2025".toList, .nan, .nan),
   (1, .vstr "30.05.2025".toList, .nan, .nan),
   (2, .vstr "20.02.2025".toList, .nan, .nan)]

/-- C4 witness: on the three concrete rows at 2025-12-01, row 0
(measure date 11.06.2025, ten days left) is expiring, row 1 (30.05.2025,
minus one day left) is expired, and row 2 (20.02.2025, expiry 20.08.2025
before the cutoff) is in neither set. -/
theorem claim_c4_witness :
    0 ∈ (recalcExpiringAndExpired exToday exRowsC4).2.1 ∧
    1 ∈ (recalcExpiringAndExpired exToday exRowsC4).1 ∧
    (2 ∉ (recalcExpiringAndExpired exToday exRowsC4).1 ∧
      2 ∉ (recalcExpiringAndExpired exToday exRowsC4).2.1) :=
  ⟨(claim_c4_measure_deadline exToday exRowsC4 0
      (.vstr "11.06.2025".toList) .nan .nan ⟨2025, 6, 11⟩
      (by decide) (by decide) (by decide)).1 (by decide) (by decide),
   (claim_c4_measure_deadline exToday exRowsC4 1
      (.vstr "30.05.2025".toList) .nan .nan ⟨2025, 5, 30⟩
      (by decide) (by decide) (by decide)).2.1 (by decide) (by decide),
   (claim_c4_measure_deadline exToday exRowsC4 2
      (.vstr "20.02.2025".toList) .nan .nan ⟨2025, 2, 20⟩
      (by decide) (by decide) (by decide)).2.2 (by decide)⟩

/-- Three case rows: an order date six days old with a date-free case cell,
an order date sixty-one days old with a missing case cell, and a row whose
case cell already carries a date. -/
def exRowsC2 : List (Nat × PValue × PValue × PValue) :=
  [(0, .nan, .vstr "25.11.2025".toList, .vstr "12345".toList),
   (1, .nan, .vstr "01.10.2025".toList, .nan),
   (2, .nan, .vstr "01.11.2025".toList, .vstr "N 03.11.2025".toList)]

/-- C2 witness: row 0 is in the warning set, so its order cell parses a
date and its case cell parses none; row 2, whose case cell carries the date
03.11.2025, is in neither the warning nor the overdue set. -/
theorem claim_c2_witness :
    (¬pdToDatetime (firstDmy (pyStr (PValue.vstr "25.11.2025".toList))) = none ∧
      pdToDatetime (firstDmy (pyStr (PValue.vstr "12345".toList))) = none) ∧
    (2 ∉ (recalcExpiringAndExpired exToday exRowsC2).2.2.1 ∧
      2 ∉ (recalcExpiringAndExpired exToday exRowsC2).2.2.2) :=
  ⟨(claim_c2_case_deadline exToday exRowsC2 0 .nan
      (.vstr "25.11.2025".toList) (.vstr "12345".toList)
      (by decide) (by decide)).1 (Or.inl (by decide)),
   (claim_c2_case_deadline exToday exRowsC2 2 .nan
      (.vstr "01.11.2025".toList) (.vstr "N 03.11.2025".toList)
      (by decide) (by decide)).2 (by decide)⟩

lemma firstDmy_eq_head (s : Str) : firstDmy s = (dmyMatches s).head? := by
  induction s using dmyMatches.induct with
  | case1 => simp [firstDmy, dmyMatches]
  | case2 c t r hm ih =>
    rw [firstDmy, dmyMatches, hm]
    rfl
  | case3 c t hm ih =>
    rw [firstDmy, dmyMatches, hm]
    exact ih

lemma getLast?_or_shift {α : Type} (r : α) (X : List α) (acc : Option α) :
    ((r :: X).getLast?).or acc = (X.getLast?).or (some r) := by
  cases X with
  | nil => rfl
  | cons q qs =>
    rw [List.getLast?_cons_cons]
    have : ∃ y, (q :: qs).getLast? = some y := by
      induction qs generalizing q with
      | nil => exact ⟨q, rfl⟩
      | cons w ws ih =>
        rcases ih w with ⟨y, hy⟩
        exact ⟨y, by rw [List.getLast?_cons_cons]; exact hy⟩
    rcases this with ⟨y, hy⟩
    rw [hy]
    rfl

lemma lastDmyAux_eq (s : Str) : ∀ acc,
    lastDmy.lastDmyAux acc s = ((dmyMatches s).getLast?).or acc := by
  induction s using dmyMatches.induct with
  | case1 =>
    intro acc
    simp [lastDmy.lastDmyAux, dmyMatches]
  | case2 c t r hm ih =>
    intro acc
    have step : lastDmy.lastDmyAux acc (c :: t) =
        lastDmy.lastDmyAux (some r) (t.drop 9) := by
      rw [lastDmy.lastDmyAux, hm]
    rw [step, ih (some r), dmyMatches, hm]
    exact (getLast?_or_shift r (dmyMatches (t.drop 9)) acc).symm
  | case3 c t hm ih =>
    intro acc
    have step : lastDmy.lastDmyAux acc (c :: t) = lastDmy.lastDmyAux acc t := by
      rw [lastDmy.lastDmyAux, hm]
    rw [step, ih acc, dmyMatches, hm]

/-- C5: the date extraction used by the deadline rules takes the first
`dd.mm.yyyy` pattern of a field's text (`firstDmy`, the pandas
`str.extract` leftmost match feeding both the rule consuming a start date
and the case-opening rule), while the valid-until variant modelled from the
spec (`lastDmy`) takes the last such pattern: the two extractions are the
head and the last element of the in-order `re.findall` match list. -/
theorem claim_c5_first_last_date_extraction (s : Str) :
    firstDmy s = (dmyMatches s).head? ∧
      lastDmy s = (dmyMatches s).getLast? := by
  refine ⟨firstDmy_eq_head s, ?_⟩
  rw [lastDmy, lastDmyAux_eq s none]
  cases (dmyMatches s).getLast? <;> rfl

/-- A registry row as seen by the duplicate recompute: the name cell and
the soft-delete flag. -/
structure RRow where
  pib : PValue
  deleted : Bool
deriving DecidableEq

/-- The duplicate identity key (main.py line 1732): the rendering of the
name cell, cut before its first comma and stripped of surrounding
whitespace.  It is deliberately not normalized through the
NameNormalizer. -/
def dupKey (v : PValue) : Str :=
  pyStrip ((pyStr v).takeWhile (fun c => !(c = ',')))

/-- `recalc_duplicate_marks` (main.py lines 1708-1746): among the rows that
are not soft-deleted, group by duplicate key, drop empty keys from the
counts, and mark every active row whose key occurs more than once among
the non-empty keys. -/
def recalcDuplicateMarks (rows : List (Nat × RRow)) : List Nat :=
  let act := rows.filter (fun p => !p.2.deleted)
  let keys := act.map (fun p => (p.1, dupKey p.2.pib))
  let valid := (keys.map Prod.snd).filter (fun k => !k.isEmpty)
  (keys.filter (fun p => 1 < valid.count p.2)).map Prod.fst

/-- Soft-delete or restore a row in place (`delete_selected_rows` and
`restore_selected_rows`, main.py lines 2203-2222, set `is_deleted` on the
selected index labels). -/
def setDeleted (rows : List (Nat × RRow)) (id : Nat) (b : Bool) :
    List (Nat × RRow) :=
  rows.map (fun p => if p.1 = id then (p.1, { p.2 with deleted := b }) else p)

lemma count_valid_eq (L : List (Nat × RRow)) (k : Str) (hk : ¬k = []) :
    (((L.map (fun p => (p.1, dupKey p.2.pib))).map Prod.snd).filter
        (fun x => !x.isEmpty)).count k =
      (L.filter (fun p => dupKey p.2.pib == k)).length := by
  have hke : k.isEmpty = false := by
    cases k with
    | nil => exact absurd rfl hk
    | cons a t => rfl
  induction L with
  | nil => rfl
  | cons p t ih =>
    simp only [List.map_cons, List.filter_cons]
    by_cases hpk : dupKey p.2.pib = k
    · rw [hpk, if_pos (show (!k.isEmpty) = true by rw [hke]; rfl),
        if_pos (show (k == k) = true from beq_self_eq_true k),
        List.count_cons, List.length_cons, ih]
      simp
    · have hne : (dupKey p.2.pib == k) = false := beq_eq_false_iff_ne.mpr hpk
      rw [if_neg (show ¬(dupKey p.2.pib == k) = true by
        rw [hne]; exact Bool.false_ne_true)]
      by_cases hpe : (dupKey p.2.pib).isEmpty = true
      · rw [if_neg (show ¬(!(dupKey p.2.pib).isEmpty) = true by simp [hpe])]
        exact ih
      · rw [if_pos (show (!(dupKey p.2.pib).isEmpty) = true by
            rw [Bool.eq_false_iff.mpr hpe]; rfl),
          List.count_cons, hne]
        simpa using ih

lemma two_le_length_of_two_mem {α : Type} {l : List α} {a b : α}
    (ha : a ∈ l) (hb : b ∈ l) (hne : ¬a = b) : 2 ≤ l.length := by
  cases l with
  | nil => cases ha
  | cons x t =>
    cases t with
    | nil =>
      rw [List.mem_singleton] at ha hb
      exact absurd (ha.trans hb.symm) hne
    | cons y s =>
      simp only [List.length_cons]
      omega

lemma exists_snd_of_two {L : List (Nat × RRow)}
    (hnd : (L.map Prod.fst).Nodup) (hlen : 2 ≤ L.length) (id : Nat) :
    ∃ q ∈ L, ¬q.1 = id := by
  cases L with
  | nil => simp at hlen
  | cons x t =>
    cases t with
    | nil => simp at hlen
    | cons y s =>
      by_cases hx : x.1 = id
      · refine ⟨y, List.mem_cons_of_mem _ (List.mem_cons_self ..), fun hy => ?_⟩
        rw [List.map_cons, List.nodup_cons] at hnd
        exact hnd.1 (by
          rw [hx, ← hy]
          exact List.mem_map.mpr ⟨y, List.mem_cons_self .., rfl⟩)
      · exact ⟨x, List.mem_cons_self .., hx⟩

lemma recalcDup_mem_iff {rows : List (Nat × RRow)} {id : Nat}
    (hnd : (rows.map Prod.fst).Nodup) :
    id ∈ recalcDuplicateMarks rows ↔
      ∃ r, (id, r) ∈ rows ∧ r.deleted = false ∧ ¬dupKey r.pib = [] ∧
        ∃ id2 r2, (id2, r2) ∈ rows ∧ ¬id2 = id ∧ r2.deleted = false ∧
          dupKey r2.pib = dupKey r.pib := by
  have hact : List.Sublist (rows.filter (fun p => !p.2.deleted)) rows :=
    List.filter_sublist rows
  have hndact : ((rows.filter (fun p => !p.2.deleted)).map Prod.fst).Nodup :=
    hnd.sublist (hact.map Prod.fst)
  constructor
  · intro hm
    rcases List.mem_map.mp hm with ⟨q, hq, hqid⟩
    rcases List.mem_filter.mp hq with ⟨hqk, hqcount⟩
    rcases List.mem_map.mp hqk with ⟨p, hpact, hpq⟩
    rcases List.mem_filter.mp hpact with ⟨hprows, hpdel⟩
    have hkey : q.2 = dupKey p.2.pib := by rw [← hpq]
    have hid : p.1 = id := by rw [← hqid, ← hpq]
    have hcount : 1 < ((((rows.filter (fun p => !p.2.deleted)).map
        (fun p => (p.1, dupKey p.2.pib))).map Prod.snd).filter
        (fun x => !x.isEmpty)).count q.2 := by
      simpa using hqcount
    have hkne : ¬q.2 = [] := by
      intro hqe
      rw [hqe] at hcount
      have hzero : ((((rows.filter (fun p => !p.2.deleted)).map
          (fun p => (p.1, dupKey p.2.pib))).map Prod.snd).filter
          (fun x => !x.isEmpty)).count ([] : Str) = 0 := by
        refine List.count_eq_zero.mpr (fun hmem => ?_)
        have := (List.mem_filter.mp hmem).2
        simp at this
      rw [hzero] at hcount
      omega
    rw [count_valid_eq _ _ hkne] at hcount
    set F := (rows.filter (fun p => !p.2.deleted)).filter
      (fun p => dupKey p.2.pib == q.2) with hF
    have hndF : (F.map Prod.fst).Nodup :=
      hndact.sublist ((List.filter_sublist _).map Prod.fst)
    rcases exists_snd_of_two hndF (by omega) id with ⟨w, hwF, hwid⟩
    rcases List.mem_filter.mp hwF with ⟨hwact, hwkey⟩
    rcases List.mem_filter.mp hwact with ⟨hwrows, hwdel⟩
    refine ⟨p.2, ?_, by simpa using hpdel, by rw [← hkey]; exact hkne,
      w.1, w.2, ?_, hwid, by simpa using hwdel, ?_⟩
    · rw [← hid]
      exact hprows
    · exact hwrows
    · rw [← hkey]
      exact beq_iff_eq.mp hwkey
  · rintro ⟨r, hr, hrdel, hrk, id2, r2, h2, h2ne, h2del, h2key⟩
    have hract : (id, r) ∈ rows.filter (fun p => !p.2.deleted) :=
      List.mem_filter.mpr ⟨hr, by simp [hrdel]⟩
    have h2act : (id2, r2) ∈ rows.filter (fun p => !p.2.deleted) :=
      List.mem_filter.mpr ⟨h2, by simp [h2del]⟩
    have hrF : (id, r) ∈ (rows.filter (fun p => !p.2.deleted)).filter
        (fun p => dupKey p.2.pib == dupKey r.pib) :=
      List.mem_filter.mpr ⟨hract, beq_self_eq_true _⟩
    have h2F : (id2, r2) ∈ (rows.filter (fun p => !p.2.deleted)).filter
        (fun p => dupKey p.2.pib == dupKey r.pib) :=
      List.mem_filter.mpr ⟨h2act, beq_iff_eq.mpr h2key⟩
    have hlen : 2 ≤ ((rows.filter (fun p => !p.2.deleted)).filter
        (fun p => dupKey p.2.pib == dupKey r.pib)).length :=
      two_le_length_of_two_mem h2F hrF
        (fun he => h2ne (congrArg Prod.fst he))
    have hcount : 1 < ((((rows.filter (fun p => !p.2.deleted)).map
        (fun p => (p.1, dupKey p.2.pib))).map Prod.snd).filter
        (fun x => !x.isEmpty)).count (dupKey r.pib) := by
      rw [count_valid_eq _ _ hrk]
      omega
    refine List.mem_map.mpr ⟨(id, dupKey r.pib), List.mem_filter.mpr
      ⟨List.mem_map.mpr ⟨(id, r), hract, rfl⟩, ?_⟩, rfl⟩
    simpa using hcount

lemma setDeleted_fst (rows : List (Nat × RRow)) (id : Nat) (b : Bool) :
    (setDeleted rows id b).map Prod.fst = rows.map Prod.fst := by
  induction rows with
  | nil => rfl
  | cons p t ih =>
    rw [setDeleted, List.map_cons, List.map_cons, List.map_cons]
    rw [setDeleted] at ih
    by_cases hp : p.1 = id
    · rw [if_pos hp, ih]
    · rw [if_neg hp, ih]

lemma mem_setDeleted_of_ne {rows : List (Nat × RRow)} {id : Nat} {b : Bool}
    {p : Nat × RRow} (hp : p ∈ rows) (hne : ¬p.1 = id) :
    p ∈ setDeleted rows id b :=
  List.mem_map.mpr ⟨p, hp, by rw [if_neg hne]⟩

lemma mem_setDeleted_self {rows : List (Nat × RRow)} {id : Nat} {b : Bool}
    {r : RRow} (hp : (id, r) ∈ rows) :
    (id, ⟨r.pib, b⟩) ∈ setDeleted rows id b :=
  List.mem_map.mpr ⟨(id, r), hp, by rw [if_pos rfl]⟩

lemma mem_setDeleted_elim {rows : List (Nat × RRow)} {id : Nat} {b : Bool}
    {q : Nat × RRow} (hq : q ∈ setDeleted rows id b) :
    ∃ p ∈ rows, q.1 = p.1 ∧ q.2.pib = p.2.pib ∧
      ((p.1 = id ∧ q.2.deleted = b) ∨ (¬p.1 = id ∧ q.2 = p.2)) := by
  rcases List.mem_map.mp hq with ⟨p, hp, he⟩
  by_cases hpi : p.1 = id
  · rw [if_pos hpi] at he
    exact ⟨p, hp, by rw [← he], by rw [← he], Or.inl ⟨hpi, by rw [← he]⟩⟩
  · rw [if_neg hpi] at he
    exact ⟨p, hp, by rw [← he], by rw [← he], Or.inr ⟨hpi, by rw [← he]⟩⟩

/-- C10 (implicit): a record whose duplicate key is the empty string is
never returned by the duplicate recompute, even when several active
records share that empty key, because empty keys are dropped before the
occurrence counts are taken. -/
theorem claim_c10_empty_key_never_marked (rows : List (Nat × RRow))
    (id : Nat) (r : RRow)
    (hnd : (rows.map Prod.fst).Nodup)
    (hmem : (id, r) ∈ rows)
    (hkey : dupKey r.pib = []) :
    id ∉ recalcDuplicateMarks rows := by
  intro hm
  rcases (recalcDup_mem_iff hnd).mp hm with ⟨r2, hr2, _, hne, -⟩
  have : r2 = r := assoc_eq_of_nodup hnd hr2 hmem
  rw [this, hkey] at hne
  exact hne rfl

/-- Two active rows whose name cells both have an empty key (nothing before
the first comma once stripped). -/
def exEmptyKeyRows : List (Nat × RRow) :=
  [(0, ⟨.vstr ", x".toList, false⟩), (1, ⟨.vstr "   , y".toList, false⟩)]

/-- C10 witness: with two active rows sharing the empty key, neither row is
marked as a duplicate. -/
theorem claim_c10_witness :
    0 ∉ recalcDuplicateMarks exEmptyKeyRows :=
  claim_c10_empty_key_never_marked exEmptyKeyRows 0
    ⟨.vstr ", x".toList, false⟩ (by decide) (by decide) (by decide)

/-- C7: in a registry whose only two records with the shared non-empty
key `k` are `i` and `j`, both active: after soft-deleting `i`, the
recompute marks neither `i` (it is filtered out) nor `j` (its key count
drops to one); after restoring `i`, the recompute marks both again. -/
theorem claim_c7_soft_delete_and_restore (rows : List (Nat × RRow))
    (i j : Nat) (ri rj : RRow) (k : Str)
    (hnd : (rows.map Prod.fst).Nodup)
    (hi : (i, ri) ∈ rows) (hj : (j, rj) ∈ rows) (hij : ¬i = j)
    (hki : dupKey ri.pib = k) (hkj : dupKey rj.pib = k) (hk : ¬k = [])
    (hdi : ri.deleted = false) (hdj : rj.deleted = false)
    (hoth : ∀ p ∈ rows, ¬p.1 = i → ¬p.1 = j → ¬dupKey p.2.pib = k) :
    (i ∉ recalcDuplicateMarks (setDeleted rows i true) ∧
      j ∉ recalcDuplicateMarks (setDeleted rows i true)) ∧
    (i ∈ recalcDuplicateMarks (setDeleted (setDeleted rows i true) i false) ∧
      j ∈ recalcDuplicateMarks (setDeleted (setDeleted rows i true) i false)) := by
  have hnd1 : ((setDeleted rows i true).map Prod.fst).Nodup := by
    rw [setDeleted_fst]
    exact hnd
  have hjmem1 : (j, rj) ∈ setDeleted rows i true :=
    mem_setDeleted_of_ne hj (fun h => hij h.symm)
  have himem1 : (i, (⟨ri.pib, true⟩ : RRow)) ∈ setDeleted rows i true :=
    mem_setDeleted_self hi
  have hidel1 : ∀ r2, (i, r2) ∈ setDeleted rows i true → r2.deleted = true := by
    intro r2 hr2
    rcases mem_setDeleted_elim hr2 with ⟨p, _, hfst, _, hca | hca⟩
    · exact hca.2
    · exact absurd hfst.symm hca.1
  have hnd2 : ((setDeleted (setDeleted rows i true) i false).map
      Prod.fst).Nodup := by
    rw [setDeleted_fst]
    exact hnd1
  have hjmem2 : (j, rj) ∈ setDeleted (setDeleted rows i true) i false :=
    mem_setDeleted_of_ne hjmem1 (fun h => hij h.symm)
  have himem2 : (i, (⟨ri.pib, false⟩ : RRow)) ∈
      setDeleted (setDeleted rows i true) i false :=
    @mem_setDeleted_self (setDeleted rows i true) i false ⟨ri.pib, true⟩ himem1
  refine ⟨⟨?_, ?_⟩, ?_, ?_⟩
  · intro hm
    rcases (recalcDup_mem_iff hnd1).mp hm with ⟨r2, hr2, hdel2, -, -⟩
    rw [hidel1 r2 hr2] at hdel2
    cases hdel2
  · intro hm
    rcases (recalcDup_mem_iff hnd1).mp hm with
      ⟨r2, hr2, _, _, id2, r3, h3mem, h3ne, h3del, h3key⟩
    have hre : r2 = rj := assoc_eq_of_nodup hnd1 hr2 hjmem1
    rcases mem_setDeleted_elim h3mem with ⟨p, hp, hfst, hpib, hca⟩
    have hid2 : id2 = p.1 := hfst
    have hpib2 : r3.pib = p.2.pib := hpib
    have hpkey : dupKey p.2.pib = k := by
      rw [← hpib2, h3key, hre, hkj]
    by_cases hpi : p.1 = i
    · have h3i : id2 = i := by rw [hid2, hpi]
      subst h3i
      rw [hidel1 r3 h3mem] at h3del
      cases h3del
    · by_cases hpj : p.1 = j
      · exact h3ne (hid2.trans hpj)
      · exact absurd hpkey (hoth p hp hpi hpj)
  · refine (recalcDup_mem_iff hnd2).mpr
      ⟨⟨ri.pib, false⟩, himem2, rfl, ?_, j, rj, hjmem2,
        fun h => hij h.symm, hdj, ?_⟩
    · show ¬dupKey ri.pib = []
      rw [hki]
      exact hk
    · show dupKey rj.pib = dupKey ri.pib
      rw [hki, hkj]
  · refine (recalcDup_mem_iff hnd2).mpr
      ⟨rj, hjmem2, hdj, ?_, i, ⟨ri.pib, false⟩, himem2, hij, rfl, ?_⟩
    · rw [hkj]
      exact hk
    · show dupKey ri.pib = dupKey rj.pib
      rw [hki, hkj]

/-- Three active rows: two sharing the key `Petrenko` and one with a
different key. -/
def exDupRows : List (Nat × RRow) :=
  [(0, ⟨.vstr "Petrenko, 1990".toList, false⟩),
   (1, ⟨.vstr "Petrenko, 1991".toList, false⟩),
   (2, ⟨.vstr "Ivanenko, 1992".toList, false⟩)]

/-- C7 witness: on the concrete three-row registry, soft-deleting row 0
unmarks both members of the `Petrenko` pair and restoring it re-marks
both. -/
theorem claim_c7_witness :
    (0 ∉ recalcDuplicateMarks (setDeleted exDupRows 0 true) ∧
      1 ∉ recalcDuplicateMarks (setDeleted exDupRows 0 true)) ∧
    (0 ∈ recalcDuplicateMarks (setDeleted (setDeleted exDupRows 0 true) 0 false) ∧
      1 ∈ recalcDuplicateMarks (setDeleted (setDeleted exDupRows 0 true) 0 false)) :=
  claim_c7_soft_delete_and_restore exDupRows 0 1
    ⟨.vstr "Petrenko, 1990".toList, false⟩
    ⟨.vstr "Petrenko, 1991".toList, false⟩
    "Petrenko".toList
    (by decide) (by decide) (by decide) (by decide) (by decide) (by decide)
    (by decide) (by decide) (by decide) (by decide)

/-- The display label of a record in name matching (main.py line 714): the
rendering of the name cell cut before its first comma and stripped. -/
def pibLabel (v : PValue) : Str :=
  pyStrip ((pyStr v).takeWhile (fun c => !(c = ',')))

/-- Count of non-overlapping occurrences, scanning left to right: the
recursion behind Python's `str.count`.  The first argument is fuel, one
unit per scanned position (the caller passes the haystack length), which
keeps the recursion structural. -/
def countOccsAux (pat : Str) : Nat → Str → Nat
  | _, [] => 0
  | 0, _ => 0
  | fuel + 1, c :: t =>
    if headMatch pat (c :: t) then
      1 + countOccsAux pat fuel (t.drop (pat.length - 1))
    else countOccsAux pat fuel t

/-- Model of `hay.count(pat)` in Python: non-overlapping occurrences, with
the empty pattern counting one occurrence per gap. -/
def countOccs (hay pat : Str) : Nat :=
  if pat.isEmpty then hay.length + 1 else countOccsAux pat hay.length hay

/-- `_find_pib_matches` (main.py lines 694-738): normalize the whole
external text once; for each record take the before-comma stripped label,
skip empty labels and labels that normalize to nothing, and report a match
with its occurrence count when the normalized label occurs in the
normalized text.  The second component is the unmatched ("unique") index
labels in their original order. -/
def findPibMatches (series : List (Nat × PValue)) (text : Str) :
    List (Nat × Str × Nat) × List Nat :=
  let normText := normalizePibFlexible text
  let found := series.filterMap (fun p =>
    let name := pibLabel p.2
    if name.isEmpty then none
    else
      let nn := normalizePibFlexible name
      if nn.isEmpty then none
      else if isSub nn normText then some (p.1, name, countOccs normText nn)
      else none)
  (found,
   (series.filter (fun p =>
      !((found.map (fun m => m.1)).contains p.1))).map Prod.fst)

lemma headMatch_iff (pat l : Str) :
    headMatch pat l = true ↔ ∃ t, l = pat ++ t := by
  induction pat generalizing l with
  | nil =>
    constructor
    · intro _
      exact ⟨l, rfl⟩
    · intro _
      rfl
  | cons a as ih =>
    cases l with
    | nil =>
      constructor
      · intro h
        cases h
      · rintro ⟨t, ht⟩
        cases ht
    | cons b bs =>
      rw [headMatch]
      simp only [Bool.and_eq_true, decide_eq_true_eq, ih]
      constructor
      · rintro ⟨rfl, t, rfl⟩
        exact ⟨t, rfl⟩
      · rintro ⟨t, ht⟩
        injection ht with h1 h2
        exact ⟨h1.symm, t, h2⟩

lemma isSub_iff (pat l : Str) :
    isSub pat l = true ↔ ∃ u v, l = u ++ pat ++ v := by
  induction l with
  | nil =>
    rw [isSub]
    constructor
    · intro h
      have : pat = [] := by
        cases pat with
        | nil => rfl
        | cons a t => cases h
      exact ⟨[], [], by rw [this]; rfl⟩
    · rintro ⟨u, v, he⟩
      have h0 := List.append_eq_nil.mp he.symm
      have h1 := List.append_eq_nil.mp h0.1
      rw [h1.2]
      rfl
  | cons c t ih =>
    rw [isSub]
    simp only [Bool.or_eq_true, ih, headMatch_iff]
    constructor
    · rintro (⟨u, hu⟩ | ⟨u, v, hv⟩)
      · exact ⟨[], u, by simpa using hu⟩
      · exact ⟨c :: u, v, by simp [hv]⟩
    · rintro ⟨u, v, he⟩
      cases u with
      | nil =>
        left
        exact ⟨v, by simpa using he⟩
      | cons x xs =>
        right
        rw [List.cons_append, List.cons_append] at he
        injection he with h1 h2
        exact ⟨xs, v, h2⟩

lemma isEmpty_false_of_ne {l : Str} (h : ¬l = []) : l.isEmpty = false := by
  cases l with
  | nil => exact absurd rfl h
  | cons a t => rfl

/-- C8 counterexample: for a record whose name cell is empty, the
normalized label is the empty string, which occurs (trivially) as a
substring of every normalized external text, yet the record is skipped and
the match list stays empty — so membership in the matched set is not
equivalent to substring occurrence for every left record. -/
theorem claim_c8_counterexample :
    (∃ u w, normalizePibFlexible "abc".toList =
        u ++ normalizePibFlexible (pibLabel (PValue.vstr [])) ++ w) ∧
    (findPibMatches [(0, PValue.vstr [])] "abc".toList).1 = [] := by
  constructor
  · exact ⟨[], normalizePibFlexible "abc".toList, by decide⟩
  · decide

/-- C8 amended: for every left record whose before-comma stripped label is
non-empty and normalizes to a non-empty string, the record is matched
exactly when its normalized label occurs as a substring of the normalized
external text, and a matched record contributes the entry carrying its
label and the non-overlapping occurrence count; a record is in the unique
set exactly when its index is not among the matched indices, and the
unique set is the original index sequence filtered in order. -/
theorem claim_c8_amended_name_matching (series : List (Nat × PValue))
    (text : Str) (id : Nat) (v : PValue)
    (hnd : (series.map Prod.fst).Nodup)
    (hmem : (id, v) ∈ series)
    (hname : ¬pibLabel v = [])
    (hnn : ¬normalizePibFlexible (pibLabel v) = []) :
    ((∃ u w, normalizePibFlexible text =
        u ++ normalizePibFlexible (pibLabel v) ++ w) ↔
      (id, pibLabel v,
        countOccs (normalizePibFlexible text)
          (normalizePibFlexible (pibLabel v))) ∈
        (findPibMatches series text).1) ∧
    (id ∈ (findPibMatches series text).2 ↔
      ¬id ∈ (findPibMatches series text).1.map (fun m => m.1)) ∧
    (findPibMatches series text).2 =
      (series.map Prod.fst).filter
        (fun x => !(((findPibMatches series text).1.map (fun m => m.1)).contains x)) := by
  have hne : (pibLabel v).isEmpty = false := isEmpty_false_of_ne hname
  have hnne : (normalizePibFlexible (pibLabel v)).isEmpty = false :=
    isEmpty_false_of_ne hnn
  have hpart3 : (findPibMatches series text).2 =
      (series.map Prod.fst).filter
        (fun x => !(((findPibMatches series text).1.map (fun m => m.1)).contains x)) := by
    simp only [findPibMatches]
    rw [List.filter_map]
    rfl
  refine ⟨?_, ?_, hpart3⟩
  · constructor
    · rintro ⟨u, w, hw⟩
      have hsub : isSub (normalizePibFlexible (pibLabel v))
          (normalizePibFlexible text) = true :=
        (isSub_iff _ _).mpr ⟨u, w, hw⟩
      simp only [findPibMatches]
      refine List.mem_filterMap.mpr ⟨(id, v), hmem, ?_⟩
      simp only [hne, hnne, hsub, Bool.false_eq_true, if_false, if_true]
    · intro hm
      simp only [findPibMatches] at hm
      rcases List.mem_filterMap.mp hm with ⟨p, hp, hfp⟩
      by_cases h1 : (pibLabel p.2).isEmpty = true
      · rw [if_pos h1] at hfp
        cases hfp
      · rw [if_neg h1] at hfp
        by_cases h2 : (normalizePibFlexible (pibLabel p.2)).isEmpty = true
        · rw [if_pos h2] at hfp
          cases hfp
        · rw [if_neg h2] at hfp
          by_cases h3 : isSub (normalizePibFlexible (pibLabel p.2))
              (normalizePibFlexible text) = true
          · rw [if_pos h3] at hfp
            have htup := Option.some_inj.mp hfp
            have hid : p.1 = id := congrArg Prod.fst htup
            have hpmem : (id, p.2) ∈ series := by
              rw [← hid]
              exact hp
            have hpv : p.2 = v := assoc_eq_of_nodup hnd hpmem hmem
            rw [hpv] at h3
            exact (isSub_iff _ _).mp h3
          · rw [if_neg h3] at hfp
            cases hfp
  · rw [hpart3]
    constructor
    · intro hu
      have := (List.mem_filter.mp hu).2
      simpa using this
    · intro hni
      refine List.mem_filter.mpr
        ⟨List.mem_map.mpr ⟨(id, v), hmem, rfl⟩, ?_⟩
      simpa using hni

/-- Two records for the concrete matching witness: `Petrenko, 01.01.1990`
and `Shevchenko, 02.02.1991`. -/
def exMatchSeries : List (Nat × PValue) :=
  [(0, .vstr "Petrenko, 01.01.1990".toList),
   (1, .vstr "Shevchenko, 02.02.1991".toList)]

/-- The external text of the matching witness. -/
def exMatchText : Str := "yesterday petrenko visited".toList

/-- C8 witness: against the text `yesterday petrenko visited`, the record
`Petrenko, 01.01.1990` is matched with occurrence count 1, and the record
`Shevchenko, 02.02.1991`, which has no occurrence, is in the unique set. -/
theorem claim_c8_witness :
    (0, pibLabel (PValue.vstr "Petrenko, 01.01.1990".toList),
      countOccs (normalizePibFlexible exMatchText)
        (normalizePibFlexible
          (pibLabel (PValue.vstr "Petrenko, 01.01.1990".toList)))) ∈
      (findPibMatches exMatchSeries exMatchText).1 ∧
    countOccs (normalizePibFlexible exMatchText)
      (normalizePibFlexible
        (pibLabel (PValue.vstr "Petrenko, 01.01.1990".toList))) = 1 ∧
    1 ∈ (findPibMatches exMatchSeries exMatchText).2 :=
  ⟨(claim_c8_amended_name_matching exMatchSeries exMatchText 0
      (PValue.vstr "Petrenko, 01.01.1990".toList)
      (by decide) (by decide) (by decide) (by decide)).1.mp
      ((isSub_iff _ _).mp (by decide)),
   by decide,
   (claim_c8_amended_name_matching exMatchSeries exMatchText 1
      (PValue.vstr "Shevchenko, 02.02.1991".toList)
      (by decide) (by decide) (by decide) (by decide)).2.1.mpr (by decide)⟩
